import Mathlib

/-!
Shallow embedding of `src/examples/mvm.py`: a chunked matrix-vector-multiply
engine for an implicitly defined kernel matrix, together with the hand-written
forward-mode derivative rule (`kernel_mvm_jvp`) registered for the opaque
primitive `kernel_mvm`.

Modelling conventions:
  * 1-D numpy arrays are `List α`, 2-D arrays are `List (List α)` (row major),
    scalars are `α` for a `Field α` (floating point is read as exact real
    arithmetic, as the spec's "exactly in real arithmetic" clauses do).
  * Python's `L // chunk_size` raises `ZeroDivisionError` when
    `chunk_size = 0`; fallible code therefore returns `Option`, with `none`
    standing for the raised error.
  * every index array fed to `_chunk_vmap` in the source is an `np.arange`,
    i.e. an integer array, so the chunked engine is embedded over `List ℕ`
    index arrays and numpy fancy indexing `array[chunk]` is `List.getD`
    (indices produced by `_get_chunks` are always in range).
  * `np.transpose` applied to a 1-D array is the identity and is dropped.
-/

namespace Mvm

variable {α : Type} [Field α]

/-- numpy `np.dot` on two 1-D arrays (the source only calls it on arrays of
equal length; `zipWith` truncation is never exercised). -/
def dot (xs ys : List α) : α :=
  (List.zipWith (fun x y => x * y) xs ys).sum

/-- elementwise sum of two equal-length 1-D arrays. -/
def vadd (xs ys : List α) : List α :=
  List.zipWith (fun x y => x + y) xs ys

/-- elementwise difference of two equal-length 1-D arrays. -/
def vsub (xs ys : List α) : List α :=
  List.zipWith (fun x y => x - y) xs ys

/-- scalar times 1-D array. -/
def smulV (s : α) (xs : List α) : List α :=
  xs.map (fun x => s * x)

/-- `np.ones(n)`. -/
def ones (n : ℕ) : List α :=
  List.replicate n 1

/-- column `p` of a row-major matrix (`M[:, p]`). -/
def col (M : List (List α)) (p : ℕ) : List α :=
  M.map (fun r => r.getD p 0)

/-- the column count `P` of `M.shape = (N, P)`. -/
def ncols (M : List (List α)) : ℕ :=
  (M.headD []).length

/-- `np.square` applied elementwise to a matrix. -/
def matSquare (M : List (List α)) : List (List α) :=
  M.map (fun r => r.map (fun x => x ^ 2))

/-- `kappa * X`: broadcast multiply of a length-P vector along the columns of
an (N, P) matrix. -/
def scaleCols (k : List α) (M : List (List α)) : List (List α) :=
  M.map (fun r => List.zipWith (fun a x => a * x) k r)

/-- `np.matmul(M, v)` for a matrix and a 1-D array. -/
def mvmul (M : List (List α)) (v : List α) : List α :=
  M.map (fun r => dot r v)

/-- elementwise map over a matrix. -/
def matMap (f : α → α) (M : List (List α)) : List (List α) :=
  M.map (fun r => r.map f)

/-- scalar times matrix. -/
def smulMat (s : α) (M : List (List α)) : List (List α) :=
  M.map (fun r => r.map (fun x => s * x))

/-- elementwise sum of two same-shape matrices. -/
def matAdd (A B : List (List α)) : List (List α) :=
  List.zipWith (fun r s => List.zipWith (fun x y => x + y) r s) A B

/-- matrix plus broadcast scalar. -/
def matAddConst (A : List (List α)) (s : α) : List (List α) :=
  A.map (fun r => r.map (fun x => x + s))

/-- the chunk list built by `_get_chunks` once the division by `chunk_size`
has succeeded: `⌊L/S⌋` blocks `np.arange(i*S, (i+1)*S)` followed by the
remainder block `np.arange(L - L % S, L)` when `L % S ≠ 0`. -/
def getChunksList (L chunk_size : ℕ) : List (List ℕ) :=
  let num_chunks := L / chunk_size
  let chunks := (List.range num_chunks).map
    (fun i => List.range' (i * chunk_size) chunk_size)
  if L % chunk_size ≠ 0 then
    chunks ++ [List.range' (L - L % chunk_size) (L % chunk_size)]
  else chunks

/-- `_get_chunks(L, chunk_size)`; `none` models the `ZeroDivisionError`
Python raises at `L // chunk_size` when `chunk_size = 0`. -/
def getChunks (L chunk_size : ℕ) : Option (List (List ℕ)) :=
  if chunk_size = 0 then none else some (getChunksList L chunk_size)

/-- `_chunk_vmap(fun, array, chunk_size)`: one unchunked vectorized batch when
`chunk_size ≥ L`, otherwise per-chunk batches concatenated in chunk order. -/
def chunkVmap {β : Type} (fn : ℕ → β) (array : List ℕ) (chunk_size : ℕ) :
    Option (List β) :=
  let L := array.length
  if L ≤ chunk_size then some (array.map fn)
  else
    (getChunks L chunk_size).map
      (fun chunks => (chunks.map
        (fun c => (c.map (fun i => array.getD i 0)).map fn)).flatten)

/-- `partitioned_mvm(row, dilation)(rhs)`: output element `i` is
`np.dot(rhs, row(i))`, batched over `np.arange(rhs.shape[-1])` with chunk
size `rhs.shape[-1] // dilation`. -/
def partitioned_mvm (row : ℕ → List α) (dilation : ℕ) (rhs : List α) :
    Option (List α) :=
  chunkVmap (fun i => dot rhs (row i)) (List.range rhs.length)
    (rhs.length / dilation)

/-- `kXkXsq_row(i, kX) = np.square(1.0 + np.matmul(kX, kX[i]))`. -/
def kXkXsq_row (i : ℕ) (kX : List (List α)) : List α :=
  kX.map (fun r => (1 + dot r (kX.getD i [])) ^ 2)

/-- `kXkXsq_mvm(b, kX, dilation)`. -/
def kXkXsq_mvm (b : List α) (kX : List (List α)) (dilation : ℕ) :
    Option (List α) :=
  partitioned_mvm (fun i => kXkXsq_row i kX) dilation b

/-- `kXdkXsq_row(i, kX, dkX) = np.matmul(kX, kX[i]) * np.matmul(kX, dkX[i])`. -/
def kXdkXsq_row (i : ℕ) (kX dkX : List (List α)) : List α :=
  kX.map (fun r => dot r (kX.getD i []) * dot r (dkX.getD i []))

/-- `kXdkXsq_mvm(b, kX, dkX, dilation)`. -/
def kXdkXsq_mvm (b : List α) (kX dkX : List (List α)) (dilation : ℕ) :
    Option (List α) :=
  partitioned_mvm (fun i => kXdkXsq_row i kX dkX) dilation b

/-- `partitioned_mvm2(row, P, dilation)(rhs)`: like `partitioned_mvm` but the
index range and the chunk-size divisor come from the explicit `P`. -/
def partitioned_mvm2 (row : ℕ → List α) (P dilation : ℕ) (rhs : List α) :
    Option (List α) :=
  chunkVmap (fun i => dot rhs (row i)) (List.range P) (P / dilation)

/-- `kX_mvm(b, kX, dilation)`: columns of `kX` against `b`, i.e. `b @ kX`
(the trailing `np.transpose` is the identity on a 1-D result). -/
def kX_mvm (b : List α) (kX : List (List α)) (dilation : ℕ) :
    Option (List α) :=
  partitioned_mvm2 (fun i => col kX i) (ncols kX) dilation b

/-- `kX_mvm2(b, kX, dilation)`: rows of `kX` against `b`, i.e. `kX @ b`. -/
def kX_mvm2 (b : List α) (kX : List (List α)) (dilation : ℕ) :
    Option (List α) :=
  chunkVmap (fun i => dot b (kX.getD i [])) (List.range kX.length)
    (kX.length / dilation)

/-- `quad_mvm(b, X) = np.einsum('np,p->n', X, np.einsum('np,n->p', X, b))`,
the unchunked reference for the two-pass quadratic form. -/
def quad_mvm (b : List α) (X : List (List α)) : List α :=
  mvmul X ((List.range (ncols X)).map (fun p => dot (col X p) b))

/-- `quad_mvm_dil(b, X, dilation)`: first pass reduces over the N rows to a
length-P intermediate (`np.dot(X[:, i], b)` for `i < P`), second pass reduces
over P (`np.dot(X[i], partial)` for `i < N`). -/
def quad_mvm_dil (b : List α) (X : List (List α)) (dilation : ℕ) :
    Option (List α) :=
  (chunkVmap (fun i => dot (col X i) b) (List.range (ncols X))
      (ncols X / dilation)).bind
    (fun part1 =>
      chunkVmap (fun i => dot (X.getD i []) part1) (List.range X.length)
        (X.length / dilation))

/-- Modelled from the spec: the helper `kdot` is imported from a `utils`
module that is not part of the source tree.  Spec 4.5 writes the kernel's
closed forms in terms of the Gram product `XZᵗ`, so `kdot X Z` is the matrix
whose entry (i, j) is the inner product of row i of `X` with row j of `Z`. -/
def kdot (X Z : List (List α)) : List (List α) :=
  X.map (fun xi => Z.map (fun zj => dot xi zj))

/-- the brute-force `kernel(X, Z, eta1, eta2, c)` matrix: the sum of the four
closed forms (identity-shifted square, cross square, linear, constant). -/
def kernel (X Z : List (List α)) (eta1 eta2 c : α) : List (List α) :=
  matAddConst
    (matAdd
      (matAdd
        (smulMat (1 / 2 * eta2 ^ 2) (matMap (fun v => (1 + v) ^ 2) (kdot X Z)))
        (smulMat (-(1 / 2) * eta2 ^ 2) (kdot (matSquare X) (matSquare Z))))
      (smulMat (eta1 ^ 2 - eta2 ^ 2) (kdot X Z)))
    (c ^ 2 - 1 / 2 * eta2 ^ 2)

/-- `kernel_mvm_diag(b, kX, eta1, eta2, c, diag, dilation)`. -/
def kernel_mvm_diag (b : List α) (kX : List (List α)) (eta1 eta2 c diag : α)
    (dilation : ℕ) : Option (List α) := do
  let eta1sq := eta1 ^ 2
  let eta2sq := eta2 ^ 2
  let r1 ← kXkXsq_mvm b kX dilation
  let k1b := smulV (1 / 2 * eta2sq) r1
  let r2 ← quad_mvm_dil b (matSquare kX) dilation
  let k2b := smulV (-(1 / 2) * eta2sq) r2
  let r3 ← quad_mvm_dil b kX dilation
  let k3b := smulV (eta1sq - eta2sq) r3
  let k4b := smulV ((c ^ 2 - 1 / 2 * eta2sq) * b.sum) (ones b.length)
  return vadd (vadd (vadd (vadd k1b k2b) k3b) k4b) (smulV diag b)

/-- result of a direct (untraced) call to the `custom_jvp`-decorated
`kernel_mvm`: outside a differentiation trace JAX runs the decorated
function's own body, which is `return np.nan` — a scalar NaN placeholder,
not a length-N array.  `PyVal` separates that placeholder from a genuine
vector result. -/
inductive PyVal (α : Type) where
  | nan : PyVal α
  | vec (v : List α) : PyVal α
deriving DecidableEq

/-- `kernel_mvm(b, kappa, X, eta1, eta2, c, dilation)` as executed by a
direct call: the body is `return np.nan`. -/
def kernel_mvm (b kappa : List α) (X : List (List α)) (eta1 eta2 c : α)
    (dilation : ℕ) : PyVal α :=
  PyVal.nan

/-- `kernel_mvm_jvp`: the registered custom derivative rule.  Non-diff
arguments `(b, X, c, dilation)` first, then the primal tuple
`(kappa, eta1, eta2)` and the tangent tuple
`(kappa_dot, eta1_dot, eta2_dot)`; returns `(primal_out, tangent_out)`. -/
def kernel_mvm_jvp (b : List α) (X : List (List α)) (c : α) (dilation : ℕ)
    (kappa : List α) (eta1 eta2 : α)
    (kappa_dot : List α) (eta1_dot eta2_dot : α) :
    Option (List α × List α) := do
  let eta1sq := eta1 ^ 2
  let eta2sq := eta2 ^ 2
  let kX := scaleCols kappa X
  let Xsq := matSquare X
  let dkX := scaleCols kappa_dot X
  let dkXsq := scaleCols kappa_dot Xsq
  let k3Xsq := scaleCols (kappa.map (fun x => x ^ 3)) Xsq
  let k1b ← kXkXsq_mvm b kX dilation
  let k2b ← quad_mvm_dil b (matSquare kX) dilation
  let k3b ← quad_mvm_dil b kX dilation
  let k4b := smulV b.sum (ones b.length)
  let primal_out := vadd (vadd (vsub (smulV (1 / 2 * eta2sq) k1b)
      (smulV (1 / 2 * eta2sq) k2b)) (smulV (eta1sq - eta2sq) k3b))
      (smulV (c ^ 2 - 1 / 2 * eta2sq) k4b)
  let b_dkX ← kX_mvm b dkX dilation
  let b_dkXsq ← kX_mvm b dkXsq dilation
  let kXdkXsq_b ← kXdkXsq_mvm b kX dkX dilation
  let kX_b_dkX ← kX_mvm2 b_dkX kX dilation
  let k3Xsq_b_dkXsq ← kX_mvm2 b_dkXsq k3Xsq dilation
  let tangent_out_dkappa := vsub (smulV (2 * eta1sq) kX_b_dkX)
      (smulV (2 * eta2sq) (vsub k3Xsq_b_dkXsq kXdkXsq_b))
  let tangent_out_deta1 := smulV (2 * eta1 * eta1_dot) k3b
  let tangent_out_deta2 := smulV (eta2 * eta2_dot)
      (vsub (vsub (vsub k1b k2b) (smulV 2 k3b)) k4b)
  let tangent_out := vadd (vadd tangent_out_dkappa tangent_out_deta1)
      tangent_out_deta2
  return (primal_out, tangent_out)

/-- the spec's written quadratic form for `quad_mvm_dil`, following spec 4.3
and 8 literally: "`quad_mvm_dil` computes `Xᵗ(Xb)`", i.e. transpose-on-the-
outside.  Kept separate from the source-derived `quad_mvm`/`quad_mvm_dil` so
the two can be compared. -/
def transpose (M : List (List α)) : List (List α) :=
  (List.range (ncols M)).map (fun p => col M p)

/-- `Xᵗ(Xb)` exactly as the spec writes it. -/
def specQuadForm (b : List α) (X : List (List α)) : List α :=
  mvmul (transpose X) (mvmul X b)

/-- first-order (Taylor) expansion of a one-parameter family: `f t` equals
`a + b * t` up to a `t ^ 2` factor whose coefficient is a polynomial in `t`.
Every family below is polynomial in `t`, and for a polynomial family this is
exactly the statement that `b` is its exact directional derivative at
`t = 0`. -/
def Taylor1 (f : α → α) (a b : α) : Prop :=
  ∃ p : Polynomial α, ∀ t : α, f t = a + b * t + t ^ 2 * p.eval t

/-! ## Chunking lemmas -/

theorem flatten_chunks (S q : ℕ) :
    ((List.range q).map (fun i => List.range' (i * S) S)).flatten =
      List.range (q * S) := by
  induction q with
  | zero => simp
  | succ n ih =>
      rw [List.range_succ, List.map_append, List.flatten_append, ih]
      simp only [List.map_cons, List.map_nil, List.flatten_cons,
        List.flatten_nil, List.append_nil]
      rw [List.range_eq_range', List.range_eq_range']
      have h := List.range'_append 0 (n * S) S 1
      simp only [one_mul, zero_add] at h
      rw [h]
      congr 1
      ring

theorem getChunksList_flatten (L S : ℕ) :
    (getChunksList L S).flatten = List.range L := by
  have hdm : L / S * S + L % S = L := Nat.div_add_mod' L S
  by_cases h : L % S = 0
  · simp only [getChunksList, h, ne_eq, not_true_eq_false, if_false]
    rw [flatten_chunks]
    congr 1
    omega
  · simp only [getChunksList, ne_eq, h, not_false_eq_true, if_true]
    rw [List.flatten_append, flatten_chunks]
    simp only [List.flatten_cons, List.flatten_nil, List.append_nil]
    rw [List.range_eq_range', List.range_eq_range']
    have hrw : L - L % S = L / S * S := by omega
    rw [hrw]
    have happ := List.range'_append 0 (L / S * S) (L % S) 1
    simp only [one_mul, zero_add] at happ
    rw [happ]
    congr 1
    omega

theorem map_getD_range {β : Type} (l : List β) (d : β) :
    (List.range l.length).map (fun i => l.getD i d) = l := by
  apply List.ext_getElem
  · simp
  · intro n h1 h2
    simp only [List.getElem_map, List.getElem_range]
    exact List.getD_eq_getElem l d h2

theorem chunked_flatten_eq {β : Type} (fn : ℕ → β) (array : List ℕ) (S : ℕ) :
    ((getChunksList array.length S).map
      (fun c => (c.map (fun i => array.getD i 0)).map fn)).flatten
      = array.map fn := by
  have h1 : (getChunksList array.length S).map
      (fun c => (c.map (fun i => array.getD i 0)).map fn)
      = (getChunksList array.length S).map
        (List.map (fun i => fn (array.getD i 0))) := by
    apply List.map_congr_left
    intro c _
    rw [List.map_map]
    rfl
  have h2 : (List.range array.length).map (fun i => fn (array.getD i 0))
      = ((List.range array.length).map (fun i => array.getD i 0)).map fn := by
    rw [List.map_map]
    rfl
  rw [h1, ← List.map_flatten, getChunksList_flatten, h2, map_getD_range]

/-- whatever `_chunk_vmap` successfully returns is the unchunked elementwise
map. -/
theorem chunkVmap_eq_map {β : Type} (fn : ℕ → β) (array : List ℕ) (S : ℕ)
    (r : List β) (h : chunkVmap fn array S = some r) : r = array.map fn := by
  unfold chunkVmap at h
  by_cases hfast : array.length ≤ S
  · rw [if_pos hfast] at h
    exact (Option.some_inj.mp h).symm
  · rw [if_neg hfast] at h
    unfold getChunks at h
    by_cases hS : S = 0
    · rw [if_pos hS] at h
      simp at h
    · rw [if_neg hS] at h
      simp only [Option.map_some'] at h
      rw [chunked_flatten_eq] at h
      exact (Option.some_inj.mp h).symm

/-- `_chunk_vmap` succeeds for every positive chunk size and returns the
unchunked elementwise map. -/
theorem chunkVmap_pos {β : Type} (fn : ℕ → β) (array : List ℕ) (S : ℕ)
    (hS : 1 ≤ S) : chunkVmap fn array S = some (array.map fn) := by
  unfold chunkVmap
  by_cases hfast : array.length ≤ S
  · rw [if_pos hfast]
  · rw [if_neg hfast]
    unfold getChunks
    rw [if_neg (by omega : ¬ S = 0)]
    rw [Option.map_some', chunked_flatten_eq]

/-! ## Sum and entry toolkit -/

theorem list_sum_getD (l : List α) :
    l.sum = ∑ k ∈ Finset.range l.length, l.getD k 0 := by
  induction l with
  | nil => simp
  | cons a t ih =>
      rw [List.sum_cons, List.length_cons, Finset.sum_range_succ']
      simp only [List.getD_cons_succ, List.getD_cons_zero]
      rw [← ih]
      ring

theorem dot_eq_sum (xs ys : List α) :
    dot xs ys = ∑ k ∈ Finset.range (min xs.length ys.length),
      xs.getD k 0 * ys.getD k 0 := by
  unfold dot
  rw [list_sum_getD, List.length_zipWith]
  apply Finset.sum_congr rfl
  intro k hk
  rw [Finset.mem_range] at hk
  have hlen : k < (List.zipWith (fun x y => x * y) xs ys).length := by
    rw [List.length_zipWith]; exact hk
  have hx : k < xs.length := lt_of_lt_of_le hk (min_le_left _ _)
  have hy : k < ys.length := lt_of_lt_of_le hk (min_le_right _ _)
  rw [List.getD_eq_getElem _ _ hlen, List.getD_eq_getElem _ _ hx,
    List.getD_eq_getElem _ _ hy, List.getElem_zipWith]

theorem dot_eq_sum_len (xs ys : List α) (n : ℕ) (hx : xs.length = n)
    (hy : ys.length = n) :
    dot xs ys = ∑ k ∈ Finset.range n, xs.getD k 0 * ys.getD k 0 := by
  rw [dot_eq_sum, hx, hy, min_self]

theorem dot_comm (xs ys : List α) : dot xs ys = dot ys xs := by
  rw [dot_eq_sum, dot_eq_sum, min_comm]
  exact Finset.sum_congr rfl (fun k _ => mul_comm _ _)

/-- `⟨a ⊙ u, b ⊙ v⟩ = ⟨b ⊙ u, a ⊙ v⟩`: the two weight vectors of a doubly
weighted dot product can be swapped between the slots. -/
theorem dot_zipWith_swap (a b u v : List α) (P : ℕ) (ha : a.length = P)
    (hb : b.length = P) (hu : u.length = P) (hv : v.length = P) :
    dot (List.zipWith (fun x y => x * y) a u) (List.zipWith (fun x y => x * y) b v)
      = dot (List.zipWith (fun x y => x * y) b u)
          (List.zipWith (fun x y => x * y) a v) := by
  rw [dot_eq_sum_len _ _ P (by simp [ha, hu]) (by simp [hb, hv]),
    dot_eq_sum_len _ _ P (by simp [hb, hu]) (by simp [ha, hv])]
  apply Finset.sum_congr rfl
  intro k hk
  rw [Finset.mem_range] at hk
  have h1 : k < (List.zipWith (fun x y => x * y) a u).length := by
    simp [ha, hu]; omega
  have h2 : k < (List.zipWith (fun x y => x * y) b v).length := by
    simp [hb, hv]; omega
  have h3 : k < (List.zipWith (fun x y => x * y) b u).length := by
    simp [hb, hu]; omega
  have h4 : k < (List.zipWith (fun x y => x * y) a v).length := by
    simp [ha, hv]; omega
  rw [List.getD_eq_getElem _ _ h1, List.getD_eq_getElem _ _ h2,
    List.getD_eq_getElem _ _ h3, List.getD_eq_getElem _ _ h4]
  simp only [List.getElem_zipWith]
  ring

theorem getD_map_range {β : Type} (n : ℕ) (f : ℕ → β) (k : ℕ) (hk : k < n)
    (d : β) : ((List.range n).map f).getD k d = f k := by
  rw [List.getD_eq_getElem _ _ (by simpa using hk)]
  simp

theorem getD_map_of_lt {β γ : Type} (f : β → γ) (l : List β) (k : ℕ)
    (hk : k < l.length) (d : β) (d' : γ) :
    (l.map f).getD k d' = f (l.getD k d) := by
  rw [List.getD_eq_getElem _ _ (by simpa using hk), List.getD_eq_getElem _ _ hk]
  simp

theorem smulV_getD (s : α) (v : List α) (k : ℕ) :
    (smulV s v).getD k 0 = s * v.getD k 0 := by
  by_cases hk : k < v.length
  · exact getD_map_of_lt _ _ _ hk 0 0
  · rw [List.getD_eq_default, List.getD_eq_default]
    · ring
    · omega
    · simp [smulV]; omega

theorem vadd_getD (xs ys : List α) (k : ℕ) (hx : k < xs.length)
    (hy : k < ys.length) :
    (vadd xs ys).getD k 0 = xs.getD k 0 + ys.getD k 0 := by
  have h : k < (vadd xs ys).length := by simp [vadd]; omega
  rw [List.getD_eq_getElem _ _ h, List.getD_eq_getElem _ _ hx,
    List.getD_eq_getElem _ _ hy]
  simp [vadd]

theorem vsub_getD (xs ys : List α) (k : ℕ) (hx : k < xs.length)
    (hy : k < ys.length) :
    (vsub xs ys).getD k 0 = xs.getD k 0 - ys.getD k 0 := by
  have h : k < (vsub xs ys).length := by simp [vsub]; omega
  rw [List.getD_eq_getElem _ _ h, List.getD_eq_getElem _ _ hx,
    List.getD_eq_getElem _ _ hy]
  simp [vsub]

theorem ones_getD (n k : ℕ) (hk : k < n) : (ones n : List α).getD k 0 = 1 := by
  rw [List.getD_eq_getElem _ _ (by simpa [ones] using hk)]
  simp [ones]

theorem mvmul_getD (M : List (List α)) (v : List α) (i : ℕ)
    (hi : i < M.length) :
    (mvmul M v).getD i 0 = dot (M.getD i []) v := by
  unfold mvmul
  rw [getD_map_of_lt _ _ _ hi []]

theorem matSquare_row (M : List (List α)) (i : ℕ) (hi : i < M.length) :
    (matSquare M).getD i [] = (M.getD i []).map (fun x => x ^ 2) := by
  unfold matSquare
  rw [getD_map_of_lt _ _ _ hi []]

theorem scaleCols_row (k : List α) (M : List (List α)) (i : ℕ)
    (hi : i < M.length) :
    (scaleCols k M).getD i []
      = List.zipWith (fun a x => a * x) k (M.getD i []) := by
  unfold scaleCols
  rw [getD_map_of_lt _ _ _ hi []]

theorem col_getD (M : List (List α)) (p n : ℕ) (hn : n < M.length) :
    (col M p).getD n 0 = (M.getD n []).getD p 0 := by
  unfold col
  rw [getD_map_of_lt _ _ _ hn []]

theorem row_length (M : List (List α)) (P : ℕ) (hrows : ∀ r ∈ M, r.length = P)
    (i : ℕ) (hi : i < M.length) : (M.getD i []).length = P := by
  rw [List.getD_eq_getElem _ _ hi]
  exact hrows _ (List.getElem_mem hi)

theorem ncols_eq (M : List (List α)) (P : ℕ) (hrows : ∀ r ∈ M, r.length = P)
    (hM : 0 < M.length) : ncols M = P := by
  unfold ncols
  have h0 : M.headD [] = M.getD 0 [] := by
    cases M with
    | nil => simp at hM
    | cons a t => rfl
  rw [h0]
  exact row_length M P hrows 0 hM

/-- the central Fubini step: a row against the partitioned first-pass
intermediate equals the Gram-weighted sum against `b`. -/
theorem bilinear_exchange (bb rowB : List α) (A : List (List α)) (P : ℕ)
    (hA : ∀ r ∈ A, r.length = P) (hrowB : rowB.length = P)
    (hb : bb.length = A.length) :
    dot rowB ((List.range P).map (fun p => dot (col A p) bb))
      = ∑ j ∈ Finset.range A.length,
          dot rowB (A.getD j []) * bb.getD j 0 := by
  rw [dot_eq_sum_len _ _ P hrowB (by simp)]
  have step1 : ∀ p ∈ Finset.range P,
      rowB.getD p 0 * ((List.range P).map (fun q => dot (col A q) bb)).getD p 0
        = ∑ j ∈ Finset.range A.length,
            rowB.getD p 0 * ((A.getD j []).getD p 0 * bb.getD j 0) := by
    intro p hp
    rw [Finset.mem_range] at hp
    rw [getD_map_range _ _ _ hp]
    rw [dot_eq_sum_len (col A p) bb A.length (by simp [col]) hb]
    rw [Finset.mul_sum]
    apply Finset.sum_congr rfl
    intro j hj
    rw [Finset.mem_range] at hj
    rw [col_getD _ _ _ hj]
  rw [Finset.sum_congr rfl step1, Finset.sum_comm]
  apply Finset.sum_congr rfl
  intro j hj
  rw [Finset.mem_range] at hj
  rw [dot_eq_sum_len _ _ P hrowB (row_length A P hA j hj), Finset.sum_mul]
  apply Finset.sum_congr rfl
  intro p _
  ring

/-! ## Length lemmas -/

@[simp] theorem length_smulV (s : α) (v : List α) :
    (smulV s v).length = v.length := by simp [smulV]

@[simp] theorem length_vadd (xs ys : List α) :
    (vadd xs ys).length = min xs.length ys.length := by simp [vadd]

@[simp] theorem length_vsub (xs ys : List α) :
    (vsub xs ys).length = min xs.length ys.length := by simp [vsub]

@[simp] theorem length_ones (n : ℕ) : (ones n : List α).length = n := by
  simp [ones]

@[simp] theorem length_mvmul (M : List (List α)) (v : List α) :
    (mvmul M v).length = M.length := by simp [mvmul]

@[simp] theorem length_col (M : List (List α)) (p : ℕ) :
    (col M p).length = M.length := by simp [col]

@[simp] theorem length_matSquare (M : List (List α)) :
    (matSquare M).length = M.length := by simp [matSquare]

@[simp] theorem length_scaleCols (k : List α) (M : List (List α)) :
    (scaleCols k M).length = M.length := by simp [scaleCols]

@[simp] theorem length_kdot (X Z : List (List α)) :
    (kdot X Z).length = X.length := by simp [kdot]

@[simp] theorem length_kernel (X Z : List (List α)) (e1 e2 c : α) :
    (kernel X Z e1 e2 c).length = X.length := by
  simp [kernel, matAddConst, matAdd, smulMat, matMap]

@[simp] theorem length_kXkXsq_row (i : ℕ) (kX : List (List α)) :
    (kXkXsq_row i kX).length = kX.length := by simp [kXkXsq_row]

@[simp] theorem length_kXdkXsq_row (i : ℕ) (kX dkX : List (List α)) :
    (kXdkXsq_row i kX dkX).length = kX.length := by simp [kXdkXsq_row]

theorem matSquare_rows (M : List (List α)) (P : ℕ)
    (hrows : ∀ r ∈ M, r.length = P) :
    ∀ r ∈ matSquare M, r.length = P := by
  intro r hr
  obtain ⟨s, hs, rfl⟩ := List.mem_map.mp hr
  simp [hrows s hs]

theorem scaleCols_rows (k : List α) (M : List (List α)) (P : ℕ)
    (hk : k.length = P) (hrows : ∀ r ∈ M, r.length = P) :
    ∀ r ∈ scaleCols k M, r.length = P := by
  intro r hr
  obtain ⟨s, hs, rfl⟩ := List.mem_map.mp hr
  simp [hk, hrows s hs]

/-! ## Closed forms of the chunked primitives on success -/

theorem partitioned_mvm_eq (row : ℕ → List α) (d : ℕ) (rhs r : List α)
    (h : partitioned_mvm row d rhs = some r) :
    r = (List.range rhs.length).map (fun i => dot rhs (row i)) :=
  chunkVmap_eq_map _ _ _ _ h

theorem kXkXsq_mvm_eq (b : List α) (kX : List (List α)) (d : ℕ) (r : List α)
    (h : kXkXsq_mvm b kX d = some r) :
    r = (List.range b.length).map (fun i => dot b (kXkXsq_row i kX)) :=
  chunkVmap_eq_map _ _ _ _ h

theorem kXdkXsq_mvm_eq (b : List α) (kX dkX : List (List α)) (d : ℕ)
    (r : List α) (h : kXdkXsq_mvm b kX dkX d = some r) :
    r = (List.range b.length).map (fun i => dot b (kXdkXsq_row i kX dkX)) :=
  chunkVmap_eq_map _ _ _ _ h

theorem kX_mvm_eq (b : List α) (kX : List (List α)) (d : ℕ) (r : List α)
    (h : kX_mvm b kX d = some r) :
    r = (List.range (ncols kX)).map (fun p => dot b (col kX p)) :=
  chunkVmap_eq_map _ _ _ _ h

theorem kX_mvm2_eq (b : List α) (kX : List (List α)) (d : ℕ) (r : List α)
    (h : kX_mvm2 b kX d = some r) :
    r = (List.range kX.length).map (fun i => dot b (kX.getD i [])) :=
  chunkVmap_eq_map _ _ _ _ h

theorem quad_mvm_dil_eq (b : List α) (X : List (List α)) (d : ℕ) (r : List α)
    (h : quad_mvm_dil b X d = some r) :
    r = (List.range X.length).map (fun i => dot (X.getD i [])
        ((List.range (ncols X)).map (fun p => dot (col X p) b))) := by
  unfold quad_mvm_dil at h
  cases h1 : chunkVmap (fun i => dot (col X i) b) (List.range (ncols X))
      (ncols X / d) with
  | none => rw [h1] at h; simp at h
  | some part1 =>
      rw [h1, Option.some_bind] at h
      have e1 := chunkVmap_eq_map _ _ _ _ h1
      have e2 := chunkVmap_eq_map _ _ _ _ h
      rw [e2, e1]

/-! ## The kernel matrix, row by row -/

theorem kdot_row (X Z : List (List α)) (i : ℕ) (hi : i < X.length) :
    (kdot X Z).getD i [] = Z.map (fun z => dot (X.getD i []) z) := by
  unfold kdot
  rw [getD_map_of_lt _ _ _ hi []]

theorem matAdd_row (A B : List (List α)) (i : ℕ) (hA : i < A.length)
    (hB : i < B.length) :
    (matAdd A B).getD i []
      = List.zipWith (fun x y => x + y) (A.getD i []) (B.getD i []) := by
  have h : i < (matAdd A B).length := by simp [matAdd]; omega
  rw [List.getD_eq_getElem _ _ h, List.getD_eq_getElem _ _ hA,
    List.getD_eq_getElem _ _ hB]
  simp [matAdd]

theorem kernel_row (X Z : List (List α)) (e1 e2 c : α) (i : ℕ)
    (hi : i < X.length) :
    (kernel X Z e1 e2 c).getD i []
      = Z.map (fun z =>
          1 / 2 * e2 ^ 2 * (1 + dot (X.getD i []) z) ^ 2
          + -(1 / 2) * e2 ^ 2 * dot ((X.getD i []).map (fun x => x ^ 2))
              (z.map (fun x => x ^ 2))
          + (e1 ^ 2 - e2 ^ 2) * dot (X.getD i []) z
          + (c ^ 2 - 1 / 2 * e2 ^ 2)) := by
  unfold kernel matAddConst
  rw [getD_map_of_lt _ _ _ (by simp [matAdd, smulMat, matMap]; omega) []]
  rw [matAdd_row _ _ _ (by simp [matAdd, smulMat, matMap]; omega)
    (by simp [smulMat]; omega)]
  rw [matAdd_row _ _ _ (by simp [smulMat, matMap]; omega)
    (by simp [smulMat]; omega)]
  unfold smulMat matMap
  rw [getD_map_of_lt _ _ _ (by simp [matMap, kdot]; omega) []]
  rw [getD_map_of_lt _ _ _ (by simp [kdot]; omega) []]
  rw [getD_map_of_lt _ _ _ (by simp [kdot, matSquare]; omega) []]
  rw [getD_map_of_lt _ _ _ (by simp [kdot]; omega) []]
  rw [kdot_row _ _ _ hi, kdot_row _ _ _ (by simp [matSquare]; omega)]
  rw [matSquare_row _ _ hi]
  unfold matSquare
  simp only [List.map_map, List.zipWith_map, List.zipWith_same]
  apply List.map_congr_left
  intro z hz
  simp only [Function.comp]

theorem mvmul_kernel_entry (X Z : List (List α)) (e1 e2 c : α) (bb : List α)
    (hbz : bb.length = Z.length) (i : ℕ) (hi : i < X.length) :
    (mvmul (kernel X Z e1 e2 c) bb).getD i 0
      = ∑ j ∈ Finset.range Z.length,
          (1 / 2 * e2 ^ 2 * (1 + dot (X.getD i []) (Z.getD j [])) ^ 2
           + -(1 / 2) * e2 ^ 2 * dot ((X.getD i []).map (fun x => x ^ 2))
               ((Z.getD j []).map (fun x => x ^ 2))
           + (e1 ^ 2 - e2 ^ 2) * dot (X.getD i []) (Z.getD j [])
           + (c ^ 2 - 1 / 2 * e2 ^ 2)) * bb.getD j 0 := by
  rw [mvmul_getD _ _ _ (by simp [hi])]
  rw [kernel_row X Z e1 e2 c i hi]
  rw [dot_eq_sum_len _ _ Z.length (by simp) hbz]
  apply Finset.sum_congr rfl
  intro j hj
  rw [Finset.mem_range] at hj
  rw [getD_map_of_lt _ _ _ hj []]

/-! ## The four-term composition equals the brute-force kernel MVM -/

theorem primal_combo_eq (b : List α) (kX : List (List α)) (e1 e2 c : α)
    (P : ℕ) (hrows : ∀ r ∈ kX, r.length = P) (hb : b.length = kX.length) :
    vadd (vadd (vsub
        (smulV (1 / 2 * e2 ^ 2)
          ((List.range b.length).map (fun i => dot b (kXkXsq_row i kX))))
        (smulV (1 / 2 * e2 ^ 2)
          ((List.range (matSquare kX).length).map
            (fun i => dot ((matSquare kX).getD i [])
              ((List.range (ncols (matSquare kX))).map
                (fun p => dot (col (matSquare kX) p) b))))))
      (smulV (e1 ^ 2 - e2 ^ 2)
        ((List.range kX.length).map
          (fun i => dot (kX.getD i [])
            ((List.range (ncols kX)).map (fun p => dot (col kX p) b))))))
      (smulV (c ^ 2 - 1 / 2 * e2 ^ 2) (smulV b.sum (ones b.length)))
      = mvmul (kernel kX kX e1 e2 c) b := by
  have hsqrows : ∀ r ∈ matSquare kX, r.length = P := matSquare_rows _ _ hrows
  apply List.ext_getElem
  · simp [hb]
  · intro n hn1 hn2
    have hnk : n < kX.length := by simpa using hn2
    have hnb : n < b.length := by omega
    have hnsq : n < (matSquare kX).length := by simpa using hnk
    have hpos : 0 < kX.length := by omega
    have hnc : ncols kX = P := ncols_eq _ _ hrows hpos
    have hncsq : ncols (matSquare kX) = P := ncols_eq _ _ hsqrows (by simpa using hpos)
    rw [← List.getD_eq_getElem _ 0 hn1, ← List.getD_eq_getElem _ 0 hn2]
    rw [vadd_getD _ _ _ (by simp [hb]; omega) (by simp; omega)]
    rw [vadd_getD _ _ _ (by simp [hb]; omega) (by simp [hb]; omega)]
    rw [vsub_getD _ _ _ (by simp [hb]; omega) (by simp [hb]; omega)]
    rw [smulV_getD, smulV_getD, smulV_getD, smulV_getD, smulV_getD]
    rw [getD_map_range _ _ _ hnb, getD_map_range _ _ _ hnsq,
      getD_map_range _ _ _ hnk, ones_getD _ _ hnb, mul_one]
    rw [mvmul_kernel_entry kX kX e1 e2 c b hb n hnk]
    have hK1 : dot b (kXkXsq_row n kX)
        = ∑ j ∈ Finset.range kX.length,
            (1 + dot (kX.getD n []) (kX.getD j [])) ^ 2 * b.getD j 0 := by
      unfold kXkXsq_row
      rw [dot_eq_sum_len _ _ kX.length hb (by simp)]
      apply Finset.sum_congr rfl
      intro j hj
      rw [Finset.mem_range] at hj
      rw [getD_map_of_lt _ _ _ hj []]
      rw [dot_comm]
      ring
    have hK2 : dot ((matSquare kX).getD n [])
        ((List.range (ncols (matSquare kX))).map
          (fun p => dot (col (matSquare kX) p) b))
        = ∑ j ∈ Finset.range kX.length,
            dot ((kX.getD n []).map (fun x => x ^ 2))
              ((kX.getD j []).map (fun x => x ^ 2)) * b.getD j 0 := by
      rw [hncsq]
      rw [bilinear_exchange b _ (matSquare kX) P hsqrows
        (row_length _ P hsqrows n hnsq) (by simp [hb])]
      simp only [length_matSquare]
      apply Finset.sum_congr rfl
      intro j hj
      rw [Finset.mem_range] at hj
      rw [matSquare_row _ _ hnk, matSquare_row _ _ hj]
    have hK3 : dot (kX.getD n [])
        ((List.range (ncols kX)).map (fun p => dot (col kX p) b))
        = ∑ j ∈ Finset.range kX.length,
            dot (kX.getD n []) (kX.getD j []) * b.getD j 0 := by
      rw [hnc]
      exact bilinear_exchange b _ kX P hrows (row_length _ P hrows n hnk) hb
    have hK4 : b.sum = ∑ j ∈ Finset.range kX.length, b.getD j 0 := by
      rw [list_sum_getD, hb]
    rw [hK1, hK2, hK3, hK4]
    rw [Finset.mul_sum, Finset.mul_sum, Finset.mul_sum, Finset.mul_sum]
    rw [← Finset.sum_sub_distrib, ← Finset.sum_add_distrib,
      ← Finset.sum_add_distrib]
    apply Finset.sum_congr rfl
    intro j hj
    ring

/-! ## Destructuring the derivative rule -/

theorem kernel_mvm_jvp_some (b kappa kappa_dot : List α) (X : List (List α))
    (eta1 eta2 eta1_dot eta2_dot c : α) (dilation : ℕ) (p tg : List α)
    (h : kernel_mvm_jvp b X c dilation kappa eta1 eta2 kappa_dot eta1_dot
      eta2_dot = some (p, tg)) :
    ∃ k1b k2b k3b b_dkX b_dkXsq kXdkXsq_b kX_b_dkX k3Xsq_b_dkXsq : List α,
      kXkXsq_mvm b (scaleCols kappa X) dilation = some k1b ∧
      quad_mvm_dil b (matSquare (scaleCols kappa X)) dilation = some k2b ∧
      quad_mvm_dil b (scaleCols kappa X) dilation = some k3b ∧
      kX_mvm b (scaleCols kappa_dot X) dilation = some b_dkX ∧
      kX_mvm b (scaleCols kappa_dot (matSquare X)) dilation = some b_dkXsq ∧
      kXdkXsq_mvm b (scaleCols kappa X) (scaleCols kappa_dot X) dilation
        = some kXdkXsq_b ∧
      kX_mvm2 b_dkX (scaleCols kappa X) dilation = some kX_b_dkX ∧
      kX_mvm2 b_dkXsq (scaleCols (kappa.map (fun x => x ^ 3)) (matSquare X))
        dilation = some k3Xsq_b_dkXsq ∧
      p = vadd (vadd (vsub (smulV (1 / 2 * eta2 ^ 2) k1b)
            (smulV (1 / 2 * eta2 ^ 2) k2b)) (smulV (eta1 ^ 2 - eta2 ^ 2) k3b))
          (smulV (c ^ 2 - 1 / 2 * eta2 ^ 2) (smulV b.sum (ones b.length))) ∧
      tg = vadd (vadd (vsub (smulV (2 * eta1 ^ 2) kX_b_dkX)
            (smulV (2 * eta2 ^ 2) (vsub k3Xsq_b_dkXsq kXdkXsq_b)))
          (smulV (2 * eta1 * eta1_dot) k3b))
        (smulV (eta2 * eta2_dot)
          (vsub (vsub (vsub k1b k2b) (smulV 2 k3b))
            (smulV b.sum (ones b.length)))) := by
  simp only [kernel_mvm_jvp, Option.bind_eq_bind] at h
  cases h1 : kXkXsq_mvm b (scaleCols kappa X) dilation with
  | none => rw [h1] at h; exact Option.noConfusion h
  | some k1b =>
  rw [h1, Option.some_bind] at h
  cases h2 : quad_mvm_dil b (matSquare (scaleCols kappa X)) dilation with
  | none => rw [h2] at h; exact Option.noConfusion h
  | some k2b =>
  rw [h2, Option.some_bind] at h
  cases h3 : quad_mvm_dil b (scaleCols kappa X) dilation with
  | none => rw [h3] at h; exact Option.noConfusion h
  | some k3b =>
  rw [h3, Option.some_bind] at h
  cases h4 : kX_mvm b (scaleCols kappa_dot X) dilation with
  | none => rw [h4] at h; exact Option.noConfusion h
  | some b_dkX =>
  rw [h4, Option.some_bind] at h
  cases h5 : kX_mvm b (scaleCols kappa_dot (matSquare X)) dilation with
  | none => rw [h5] at h; exact Option.noConfusion h
  | some b_dkXsq =>
  rw [h5, Option.some_bind] at h
  cases h6 : kXdkXsq_mvm b (scaleCols kappa X) (scaleCols kappa_dot X)
      dilation with
  | none => rw [h6] at h; exact Option.noConfusion h
  | some kXdkXsq_b =>
  rw [h6, Option.some_bind] at h
  cases h7 : kX_mvm2 b_dkX (scaleCols kappa X) dilation with
  | none => rw [h7] at h; exact Option.noConfusion h
  | some kX_b_dkX =>
  rw [h7, Option.some_bind] at h
  cases h8 : kX_mvm2 b_dkXsq (scaleCols (kappa.map (fun x => x ^ 3))
      (matSquare X)) dilation with
  | none => rw [h8] at h; exact Option.noConfusion h
  | some k3Xsq_b_dkXsq =>
  rw [h8, Option.some_bind] at h
  simp only [Option.pure_def, Option.some_inj, Prod.mk.injEq] at h
  exact ⟨k1b, k2b, k3b, b_dkX, b_dkXsq, kXdkXsq_b, kX_b_dkX, k3Xsq_b_dkXsq,
    rfl, rfl, rfl, rfl, rfl, rfl, h7, h8, h.1.symm, h.2.symm⟩

theorem kernel_mvm_diag_some (b : List α) (kX : List (List α))
    (eta1 eta2 c diag : α) (dilation : ℕ) (r : List α)
    (h : kernel_mvm_diag b kX eta1 eta2 c diag dilation = some r) :
    ∃ r1 r2 r3 : List α,
      kXkXsq_mvm b kX dilation = some r1 ∧
      quad_mvm_dil b (matSquare kX) dilation = some r2 ∧
      quad_mvm_dil b kX dilation = some r3 ∧
      r = vadd (vadd (vadd (vadd (smulV (1 / 2 * eta2 ^ 2) r1)
            (smulV (-(1 / 2) * eta2 ^ 2) r2)) (smulV (eta1 ^ 2 - eta2 ^ 2) r3))
          (smulV ((c ^ 2 - 1 / 2 * eta2 ^ 2) * b.sum) (ones b.length)))
        (smulV diag b) := by
  simp only [kernel_mvm_diag, Option.bind_eq_bind] at h
  cases h1 : kXkXsq_mvm b kX dilation with
  | none => rw [h1] at h; exact Option.noConfusion h
  | some r1 =>
  rw [h1, Option.some_bind] at h
  cases h2 : quad_mvm_dil b (matSquare kX) dilation with
  | none => rw [h2] at h; exact Option.noConfusion h
  | some r2 =>
  rw [h2, Option.some_bind] at h
  cases h3 : quad_mvm_dil b kX dilation with
  | none => rw [h3] at h; exact Option.noConfusion h
  | some r3 =>
  rw [h3, Option.some_bind] at h
  simp only [Option.pure_def, Option.some_inj] at h
  exact ⟨r1, r2, r3, rfl, rfl, rfl, h.symm⟩

theorem vadd_neg_smulV (x y : List α) (s : α) :
    vadd x (smulV (-s) y) = vsub x (smulV s y) := by
  apply List.ext_getElem
  · simp
  · intro n h1 h2
    simp only [vadd, vsub, smulV, List.getElem_zipWith, List.getElem_map]
    ring

theorem smulV_smulV (a b : α) (v : List α) :
    smulV (a * b) v = smulV a (smulV b v) := by
  simp [smulV, List.map_map, mul_assoc]

/-! ## Claim theorems C1, C3, C4, C7, C9, C10 -/

/-- C1: whenever the custom derivative rule's chunked composition completes,
its primal output `0.5·η2²·kXkXsq_mvm(b,kX) − 0.5·η2²·quad_mvm_dil(b,(kX)²)
+ (η1²−η2²)·quad_mvm_dil(b,kX) + (c²−0.5·η2²)·sum(b)·ones(N)` (with
`kX = κ⊙X`) equals the explicit matrix-vector product
`kernel_matrix(kX, kX, η1, η2, c) @ b` exactly, for every `b` of length N,
`κ` of length P, `X` of shape (N, P) and positive dilation. -/
theorem C1_primal_output_eq_kernel_matrix_mvm (b kappa kappa_dot : List α)
    (X : List (List α)) (eta1 eta2 eta1_dot eta2_dot c : α) (dilation : ℕ)
    (hd : 1 ≤ dilation) (hrows : ∀ r ∈ X, r.length = kappa.length)
    (hb : b.length = X.length) (p tg : List α)
    (h : kernel_mvm_jvp b X c dilation kappa eta1 eta2 kappa_dot eta1_dot
      eta2_dot = some (p, tg)) :
    p = mvmul (kernel (scaleCols kappa X) (scaleCols kappa X) eta1 eta2 c)
      b := by
  obtain ⟨k1b, k2b, k3b, _, _, _, _, _, e1, e2, e3, _, _, _, _, _, hp, _⟩ :=
    kernel_mvm_jvp_some b kappa kappa_dot X eta1 eta2 eta1_dot eta2_dot c
      dilation p tg h
  rw [hp, kXkXsq_mvm_eq _ _ _ _ e1, quad_mvm_dil_eq _ _ _ _ e2,
    quad_mvm_dil_eq _ _ _ _ e3]
  exact primal_combo_eq b (scaleCols kappa X) eta1 eta2 c kappa.length
    (scaleCols_rows _ _ _ rfl hrows) (by simpa using hb)

/-- C3 counterexample: at `b = [1]`, `κ = [1]`, `X = [[1]]`, `η1 = 2`,
`η2 = 1`, `c = 1`, `dilation = 1`, a direct call of `kernel_mvm` returns the
scalar NaN placeholder, not the length-1 array
`kernel_matrix(κX, κX, η1, η2, c) @ b` the claim promises. -/
theorem C3_counterexample_direct_call_is_nan :
    kernel_mvm ([1] : List ℚ) [1] [[1]] 2 1 1 1 = PyVal.nan ∧
    kernel_mvm ([1] : List ℚ) [1] [[1]] 2 1 1 1
      ≠ PyVal.vec (mvmul (kernel (scaleCols [1] [[1]])
        (scaleCols [1] [[1]]) 2 1 1) [1]) :=
  ⟨rfl, by decide⟩

/-- C3 amended: a direct (untraced) call of `kernel_mvm` returns the NaN
placeholder for every input, hence never the primal value; the correct primal
value is produced only by the registered derivative rule's primal branch
(claim C1). -/
theorem C3_amended_direct_call_is_placeholder (b kappa : List α)
    (X : List (List α)) (eta1 eta2 c : α) (dilation : ℕ) :
    kernel_mvm b kappa X eta1 eta2 c dilation = PyVal.nan ∧
    ∀ v : List α, kernel_mvm b kappa X eta1 eta2 c dilation ≠ PyVal.vec v :=
  ⟨rfl, fun v hv => PyVal.noConfusion hv⟩

/-- C4: the dilation knob never changes the value: if the derivative rule's
chunked computation completes under two dilation values, both runs return the
same primal output and the same tangent output (exactly). -/
theorem C4_dilation_invariance (b kappa kappa_dot : List α)
    (X : List (List α)) (eta1 eta2 eta1_dot eta2_dot c : α) (d1 d2 : ℕ)
    (p1 t1 p2 t2 : List α)
    (h1 : kernel_mvm_jvp b X c d1 kappa eta1 eta2 kappa_dot eta1_dot eta2_dot
      = some (p1, t1))
    (h2 : kernel_mvm_jvp b X c d2 kappa eta1 eta2 kappa_dot eta1_dot eta2_dot
      = some (p2, t2)) :
    p1 = p2 ∧ t1 = t2 := by
  obtain ⟨k1b, k2b, k3b, v4, v5, v6, v7, v8, e1, e2, e3, e4, e5, e6, e7, e8,
    hp, ht⟩ := kernel_mvm_jvp_some b kappa kappa_dot X eta1 eta2 eta1_dot
      eta2_dot c d1 p1 t1 h1
  obtain ⟨k1b', k2b', k3b', v4', v5', v6', v7', v8', f1, f2, f3, f4, f5, f6,
    f7, f8, hp', ht'⟩ := kernel_mvm_jvp_some b kappa kappa_dot X eta1 eta2
      eta1_dot eta2_dot c d2 p2 t2 h2
  have q1 : k1b = k1b' := by
    rw [kXkXsq_mvm_eq _ _ _ _ e1, kXkXsq_mvm_eq _ _ _ _ f1]
  have q2 : k2b = k2b' := by
    rw [quad_mvm_dil_eq _ _ _ _ e2, quad_mvm_dil_eq _ _ _ _ f2]
  have q3 : k3b = k3b' := by
    rw [quad_mvm_dil_eq _ _ _ _ e3, quad_mvm_dil_eq _ _ _ _ f3]
  have q4 : v4 = v4' := by
    rw [kX_mvm_eq _ _ _ _ e4, kX_mvm_eq _ _ _ _ f4]
  have q5 : v5 = v5' := by
    rw [kX_mvm_eq _ _ _ _ e5, kX_mvm_eq _ _ _ _ f5]
  have q6 : v6 = v6' := by
    rw [kXdkXsq_mvm_eq _ _ _ _ _ e6, kXdkXsq_mvm_eq _ _ _ _ _ f6]
  have q7 : v7 = v7' := by
    rw [kX_mvm2_eq _ _ _ _ e7, kX_mvm2_eq _ _ _ _ f7, q4]
  have q8 : v8 = v8' := by
    rw [kX_mvm2_eq _ _ _ _ e8, kX_mvm2_eq _ _ _ _ f8, q5]
  subst q1 q2 q3 q4 q5 q6 q7 q8
  rw [hp, hp', ht, ht']
  exact ⟨rfl, rfl⟩

/-- C7 counterexample: at `b = [1, 0]`, `X = [[1, 1], [0, 0]]` (square, so
the spec's `Xᵗ(Xb)` even type-checks), `quad_mvm_dil` returns `[2, 0]` —
which is `X(Xᵗb)` — while the formula `Xᵗ(Xb)` written in the spec equals
`[1, 1]`. -/
theorem C7_counterexample_spec_formula :
    quad_mvm_dil ([1, 0] : List ℚ) [[1, 1], [0, 0]] 1 = some [2, 0] ∧
    specQuadForm ([1, 0] : List ℚ) [[1, 1], [0, 0]] = [1, 1] ∧
    ([2, 0] : List ℚ) ≠ [1, 1] := by
  refine ⟨?_, ?_, ?_⟩
  · norm_num [quad_mvm_dil, chunkVmap, getChunks, getChunksList, col, ncols,
      dot, mvmul, List.range_succ, List.range_zero, List.getD,
      List.getElem?_cons_zero, List.getElem?_cons_succ]
  · norm_num [specQuadForm, transpose, mvmul, col, ncols, dot,
      List.range_succ, List.range_zero, List.getD, List.getElem?_cons_zero,
      List.getElem?_cons_succ]
  · norm_num

/-- C7 amended: `quad_mvm_dil(b, X, dilation)` computes `X(Xᵗb)` — the first
partitioned pass reduces over the N rows to the length-P intermediate `Xᵗb`,
the second pass reduces over P — and whenever it completes it equals the
directly computed `quad_mvm(b, X) = X(Xᵗb)` exactly, for every dilation
value. -/
theorem C7_amended_quad_mvm_dil_eq_quad_mvm (b : List α)
    (X : List (List α)) (d : ℕ) (r : List α)
    (h : quad_mvm_dil b X d = some r) : r = quad_mvm b X := by
  rw [quad_mvm_dil_eq b X d r h]
  unfold quad_mvm mvmul
  apply List.ext_getElem
  · simp
  · intro n h1 h2
    simp only [List.getElem_map, List.getElem_range]
    congr 1
    rw [List.getD_eq_getElem]

/-- C9: for a right-hand side of length `L ≥ 1` and dilation `d > L`, the
derived chunk size `L // d` is zero, the unchunked fast path is not taken,
`_get_chunks` raises the division by zero (modelled `none`), and the
partitioned MVM fails rather than returning a result. -/
theorem C9_dilation_gt_length_errors (row : ℕ → List α) (d : ℕ)
    (rhs : List α) (hL : 1 ≤ rhs.length) (hd : rhs.length < d) :
    rhs.length / d = 0 ∧
    getChunks rhs.length (rhs.length / d) = none ∧
    partitioned_mvm row d rhs = none := by
  have h0 : rhs.length / d = 0 := Nat.div_eq_of_lt hd
  refine ⟨h0, ?_, ?_⟩
  · rw [h0]
    unfold getChunks
    rw [if_pos rfl]
  · unfold partitioned_mvm chunkVmap
    rw [h0]
    rw [if_neg (by simpa using (by omega : ¬ rhs.length ≤ 0))]
    unfold getChunks
    rw [if_pos rfl]
    rfl

/-- C10: whenever `kernel_mvm_diag(b, kX, η1, η2, c, diag, dilation)`
completes, it equals `kernel_matrix(kX, kX, η1, η2, c) @ b` plus the
elementwise diagonal shift `diag * b`, exactly. -/
theorem C10_kernel_mvm_diag_adds_diag (b : List α) (kX : List (List α))
    (eta1 eta2 c diag : α) (dilation : ℕ) (P : ℕ)
    (hrows : ∀ r ∈ kX, r.length = P) (hb : b.length = kX.length)
    (r : List α) (h : kernel_mvm_diag b kX eta1 eta2 c diag dilation = some r) :
    r = vadd (mvmul (kernel kX kX eta1 eta2 c) b) (smulV diag b) := by
  obtain ⟨r1, r2, r3, h1, h2, h3, hr⟩ :=
    kernel_mvm_diag_some b kX eta1 eta2 c diag dilation r h
  rw [hr, kXkXsq_mvm_eq _ _ _ _ h1, quad_mvm_dil_eq _ _ _ _ h2,
    quad_mvm_dil_eq _ _ _ _ h3]
  congr 1
  rw [neg_mul, vadd_neg_smulV,
    show smulV ((c ^ 2 - 1 / 2 * eta2 ^ 2) * b.sum) (ones b.length)
      = smulV (c ^ 2 - 1 / 2 * eta2 ^ 2) (smulV b.sum (ones b.length)) from
      smulV_smulV _ _ _]
  exact primal_combo_eq b kX eta1 eta2 c P hrows hb

/-! ## Claim theorems C5, C6, C8 -/

/-- everything C6 asserts about `_get_chunks(L, S)`, for any positive `S`. -/
theorem getChunks_spec_core (L S : ℕ) (hS : 1 ≤ S) :
    ∃ cs, getChunks L S = some cs ∧
      cs.length = (if L % S = 0 then L / S else L / S + 1) ∧
      (∀ i, i < L / S → cs.getD i [] = List.range' (i * S) S) ∧
      (L % S ≠ 0 → cs.getD (L / S) []
        = List.range' (L - L % S) (L % S)) ∧
      cs.flatten = List.range L := by
  refine ⟨getChunksList L S, ?_, ?_, ?_, ?_, getChunksList_flatten L S⟩
  · unfold getChunks
    rw [if_neg (by omega)]
  · unfold getChunksList
    by_cases h : L % S = 0 <;> simp [h]
  · intro i hi
    unfold getChunksList
    by_cases h : L % S = 0
    · simp only [h, ne_eq, not_true_eq_false, if_false]
      exact getD_map_range _ _ _ hi []
    · simp only [ne_eq, h, not_false_eq_true, if_true]
      rw [List.getD_append _ _ _ _ (by simpa using hi)]
      exact getD_map_range _ _ _ hi []
  · intro h
    unfold getChunksList
    simp only [ne_eq, h, not_false_eq_true, if_true]
    rw [List.getD_append_right _ _ _ _ (by simp)]
    simp

/-- C5: for every chunk size `S ≥ 1` and every index array, `_chunk_vmap`
returns exactly the ordered unchunked elementwise map
`[f(array[0]), ..., f(array[L-1])]`, including when `L` is not divisible by
`S`; when `S ≥ L` this is computed as one unchunked batch (the first branch
of `chunkVmap`). -/
theorem C5_chunk_vmap_unchunked_equivalence {β : Type} (fn : ℕ → β)
    (array : List ℕ) (chunk_size : ℕ) (hS : 1 ≤ chunk_size) :
    chunkVmap fn array chunk_size = some (array.map fn) :=
  chunkVmap_pos fn array chunk_size hS

/-- C5 witness at the spec's example: `L = 9`, `S = 4`. -/
theorem C5_chunk_vmap_unchunked_equivalence_witness :
    1 ≤ 4 ∧ chunkVmap (fun i => i * i) (List.range 9) 4
      = some ((List.range 9).map (fun i => i * i)) :=
  ⟨by decide, C5_chunk_vmap_unchunked_equivalence (fun i => i * i)
    (List.range 9) 4 (by decide)⟩

/-- C6: `_get_chunks(L, S)` returns exactly `⌊L/S⌋` blocks of exactly `S`
contiguous indices starting at 0, followed by one final block of the
remaining `L mod S` indices when `L mod S ≠ 0` (and none when `S ∣ L`); the
blocks concatenate, in ascending order and without overlap, to exactly
`[0, ..., L-1]`. -/
theorem C6_get_chunks_partition (L S : ℕ) (hL : 1 ≤ L) (hS : 1 ≤ S) :
    ∃ cs, getChunks L S = some cs ∧
      cs.length = (if L % S = 0 then L / S else L / S + 1) ∧
      (∀ i, i < L / S → cs.getD i [] = List.range' (i * S) S ∧
        (cs.getD i []).length = S) ∧
      (L % S ≠ 0 → cs.getD (L / S) [] = List.range' (L - L % S) (L % S) ∧
        (cs.getD (L / S) []).length = L % S) ∧
      cs.flatten = List.range L := by
  obtain ⟨cs, h1, h2, h3, h4, h5⟩ := getChunks_spec_core L S hS
  refine ⟨cs, h1, h2, ?_, ?_, h5⟩
  · intro i hi
    exact ⟨h3 i hi, by rw [h3 i hi]; simp⟩
  · intro h
    exact ⟨h4 h, by rw [h4 h]; simp⟩

/-- C6 witness at `L = 9`, `S = 4`. -/
theorem C6_get_chunks_partition_witness :
    1 ≤ 9 ∧ 1 ≤ 4 ∧
    ∃ cs, getChunks 9 4 = some cs ∧
      cs.length = (if 9 % 4 = 0 then 9 / 4 else 9 / 4 + 1) ∧
      (∀ i, i < 9 / 4 → cs.getD i [] = List.range' (i * 4) 4 ∧
        (cs.getD i []).length = 4) ∧
      (9 % 4 ≠ 0 → cs.getD (9 / 4) [] = List.range' (9 - 9 % 4) (9 % 4) ∧
        (cs.getD (9 / 4) []).length = 9 % 4) ∧
      cs.flatten = List.range 9 :=
  ⟨by decide, by decide, C6_get_chunks_partition 9 4 (by decide) (by decide)⟩

/-- C8 counterexample: for `L = 10`, `dilation = 2` the partitioned MVM's
chunk decomposition is `_get_chunks(10, 10 // 2)`, which has 2 chunks —
not `10 // 2 = 5` chunks as the claim states. -/
theorem C8_counterexample_chunk_count :
    Option.map List.length (getChunks 10 (10 / 2)) = some 2 ∧
    ¬ (10 / 2 : ℕ) = 2 := by
  constructor
  · rfl
  · decide

/-- C8 amended: `partitioned_mvm` batches over `_chunk_vmap` with chunk SIZE
`L // dilation` (`L = rhs.length`); for `2 ≤ dilation ≤ L` the decomposition
`_get_chunks(L, L // dilation)` therefore consists of `L / (L / dilation)`
full blocks of exactly `L // dilation` contiguous indices each, plus a final
partial block of `L mod (L // dilation)` indices when that remainder is
nonzero, together covering `[0, L)` exactly once in order. -/
theorem C8_amended_chunk_size_is_L_div_dilation (row : ℕ → List α) (d : ℕ)
    (rhs : List α) (h2 : 2 ≤ d) (hdL : d ≤ rhs.length) :
    partitioned_mvm row d rhs
      = chunkVmap (fun i => dot rhs (row i)) (List.range rhs.length)
          (rhs.length / d) ∧
    ∃ cs, getChunks rhs.length (rhs.length / d) = some cs ∧
      cs.length = (if rhs.length % (rhs.length / d) = 0
        then rhs.length / (rhs.length / d)
        else rhs.length / (rhs.length / d) + 1) ∧
      (∀ i, i < rhs.length / (rhs.length / d) →
        (cs.getD i []).length = rhs.length / d) ∧
      (rhs.length % (rhs.length / d) ≠ 0 →
        (cs.getD (rhs.length / (rhs.length / d)) []).length
          = rhs.length % (rhs.length / d)) ∧
      cs.flatten = List.range rhs.length := by
  refine ⟨rfl, ?_⟩
  have hpos : 1 ≤ rhs.length / d :=
    (Nat.one_le_div_iff (by omega)).mpr hdL
  obtain ⟨cs, h1, h2', h3, h4, h5⟩ :=
    getChunks_spec_core rhs.length (rhs.length / d) hpos
  refine ⟨cs, h1, h2', ?_, ?_, h5⟩
  · intro i hi
    rw [h3 i hi]
    simp
  · intro h
    rw [h4 h]
    simp

/-! ## Witnesses -/

/-- C1 witness: a concrete run over ℚ. -/
theorem C1_primal_output_eq_kernel_matrix_mvm_witness :
    (1 ≤ 1) ∧ (∀ r ∈ [[(1 : ℚ)]], r.length = [(1 : ℚ)].length) ∧
    ([(1 : ℚ)].length = [[(1 : ℚ)]].length) ∧
    kernel_mvm_jvp [(1 : ℚ)] [[1]] 3 1 [1] 2 1 [0] 0 0 = some ([13], [0]) ∧
    ([13] : List ℚ) = mvmul (kernel (scaleCols [1] [[1]])
      (scaleCols [1] [[1]]) 2 1 3) [1] := by
  have hj : kernel_mvm_jvp [(1 : ℚ)] [[1]] 3 1 [1] 2 1 [0] 0 0
      = some ([13], [0]) := by
    norm_num [kernel_mvm_jvp, kXkXsq_mvm, kXdkXsq_mvm, kX_mvm, kX_mvm2,
      quad_mvm_dil, partitioned_mvm, partitioned_mvm2, chunkVmap, getChunks,
      getChunksList, kXkXsq_row, kXdkXsq_row, col, ncols, dot, scaleCols,
      matSquare, smulV, vadd, vsub, ones, List.replicate, List.range_succ,
      List.range_zero, List.getD, List.getElem?_cons_zero,
      List.getElem?_cons_succ]
  refine ⟨by decide, ?_, rfl, hj, ?_⟩
  · intro r hr
    rw [List.mem_singleton] at hr
    subst hr
    rfl
  · exact C1_primal_output_eq_kernel_matrix_mvm [(1 : ℚ)] [1] [0] [[1]]
      2 1 0 0 3 1 (by decide)
      (by intro r hr; rw [List.mem_singleton] at hr; subst hr; rfl)
      rfl [13] [0] hj

set_option maxHeartbeats 1600000 in
/-- C4 witness: dilations 1 and 2 on a concrete run over ℚ. -/
theorem C4_dilation_invariance_witness :
    kernel_mvm_jvp [(1 : ℚ), 1] [[1, 0], [0, 1]] 0 1 [1, 1] 1 1 [1, 0] 1 0
      = some ([1, 1], [4, 2]) ∧
    kernel_mvm_jvp [(1 : ℚ), 1] [[1, 0], [0, 1]] 0 2 [1, 1] 1 1 [1, 0] 1 0
      = some ([1, 1], [4, 2]) ∧
    (([1, 1] : List ℚ) = [1, 1] ∧ ([4, 2] : List ℚ) = [4, 2]) := by
  have hj1 : kernel_mvm_jvp [(1 : ℚ), 1] [[1, 0], [0, 1]] 0 1 [1, 1] 1 1
      [1, 0] 1 0 = some ([1, 1], [4, 2]) := by
    norm_num [kernel_mvm_jvp, kXkXsq_mvm, kXdkXsq_mvm, kX_mvm, kX_mvm2,
      quad_mvm_dil, partitioned_mvm, partitioned_mvm2, chunkVmap, getChunks,
      getChunksList, kXkXsq_row, kXdkXsq_row, col, ncols, dot, scaleCols,
      matSquare, smulV, vadd, vsub, ones, List.replicate, List.range_succ,
      List.range_zero, List.getD, List.getElem?_cons_zero,
      List.getElem?_cons_succ]
  have hj2 : kernel_mvm_jvp [(1 : ℚ), 1] [[1, 0], [0, 1]] 0 2 [1, 1] 1 1
      [1, 0] 1 0 = some ([1, 1], [4, 2]) := by
    norm_num [kernel_mvm_jvp, kXkXsq_mvm, kXdkXsq_mvm, kX_mvm, kX_mvm2,
      quad_mvm_dil, partitioned_mvm, partitioned_mvm2, chunkVmap, getChunks,
      getChunksList, kXkXsq_row, kXdkXsq_row, col, ncols, dot, scaleCols,
      matSquare, smulV, vadd, vsub, ones, List.replicate, List.range_succ,
      List.range_zero, List.getD, List.getElem?_cons_zero,
      List.getElem?_cons_succ]
  exact ⟨hj1, hj2, C4_dilation_invariance [(1 : ℚ), 1] [1, 1] [1, 0]
    [[1, 0], [0, 1]] 1 1 1 0 0 1 2 [1, 1] [4, 2] [1, 1] [4, 2] hj1 hj2⟩

/-- C7 amended witness: a concrete successful run over ℚ. -/
theorem C7_amended_quad_mvm_dil_eq_quad_mvm_witness :
    quad_mvm_dil ([1, 0] : List ℚ) [[1, 1], [0, 0]] 2 = some [2, 0] ∧
    ([2, 0] : List ℚ) = quad_mvm [1, 0] [[1, 1], [0, 0]] := by
  have hq : quad_mvm_dil ([1, 0] : List ℚ) [[1, 1], [0, 0]] 2
      = some [2, 0] := by
    norm_num [quad_mvm_dil, chunkVmap, getChunks, getChunksList, col, ncols,
      dot, List.range_succ, List.range_zero, List.getD,
      List.getElem?_cons_zero, List.getElem?_cons_succ]
  exact ⟨hq, C7_amended_quad_mvm_dil_eq_quad_mvm [1, 0] [[1, 1], [0, 0]]
    2 [2, 0] hq⟩

/-- C8 amended witness at `L = 10`, `dilation = 2` over ℚ. -/
theorem C8_amended_chunk_size_is_L_div_dilation_witness :
    (2 ≤ 2) ∧
    (2 ≤ ([1, 1, 1, 1, 1, 1, 1, 1, 1, 1] : List ℚ).length) ∧
    (partitioned_mvm (fun _ => []) 2 ([1, 1, 1, 1, 1, 1, 1, 1, 1, 1] : List ℚ)
      = chunkVmap (fun i => dot [1, 1, 1, 1, 1, 1, 1, 1, 1, 1]
          ((fun _ => []) i))
        (List.range ([1, 1, 1, 1, 1, 1, 1, 1, 1, 1] : List ℚ).length)
        (([1, 1, 1, 1, 1, 1, 1, 1, 1, 1] : List ℚ).length / 2) ∧
      ∃ cs, getChunks ([1, 1, 1, 1, 1, 1, 1, 1, 1, 1] : List ℚ).length
          (([1, 1, 1, 1, 1, 1, 1, 1, 1, 1] : List ℚ).length / 2) = some cs ∧
        cs.length = (if ([1, 1, 1, 1, 1, 1, 1, 1, 1, 1] : List ℚ).length %
            (([1, 1, 1, 1, 1, 1, 1, 1, 1, 1] : List ℚ).length / 2) = 0
          then ([1, 1, 1, 1, 1, 1, 1, 1, 1, 1] : List ℚ).length /
            (([1, 1, 1, 1, 1, 1, 1, 1, 1, 1] : List ℚ).length / 2)
          else ([1, 1, 1, 1, 1, 1, 1, 1, 1, 1] : List ℚ).length /
            (([1, 1, 1, 1, 1, 1, 1, 1, 1, 1] : List ℚ).length / 2) + 1) ∧
        (∀ i, i < ([1, 1, 1, 1, 1, 1, 1, 1, 1, 1] : List ℚ).length /
            (([1, 1, 1, 1, 1, 1, 1, 1, 1, 1] : List ℚ).length / 2) →
          (cs.getD i []).length
            = ([1, 1, 1, 1, 1, 1, 1, 1, 1, 1] : List ℚ).length / 2) ∧
        (([1, 1, 1, 1, 1, 1, 1, 1, 1, 1] : List ℚ).length %
            (([1, 1, 1, 1, 1, 1, 1, 1, 1, 1] : List ℚ).length / 2) ≠ 0 →
          (cs.getD (([1, 1, 1, 1, 1, 1, 1, 1, 1, 1] : List ℚ).length /
              (([1, 1, 1, 1, 1, 1, 1, 1, 1, 1] : List ℚ).length / 2)) []).length
            = ([1, 1, 1, 1, 1, 1, 1, 1, 1, 1] : List ℚ).length %
              (([1, 1, 1, 1, 1, 1, 1, 1, 1, 1] : List ℚ).length / 2)) ∧
        cs.flatten
          = List.range ([1, 1, 1, 1, 1, 1, 1, 1, 1, 1] : List ℚ).length) :=
  ⟨by decide, by decide, C8_amended_chunk_size_is_L_div_dilation
    (fun _ => []) 2 [1, 1, 1, 1, 1, 1, 1, 1, 1, 1] (by decide) (by decide)⟩

/-- C9 witness: a length-2 right-hand side with dilation 3 over ℚ. -/
theorem C9_dilation_gt_length_errors_witness :
    (1 ≤ ([1, 2] : List ℚ).length) ∧ (([1, 2] : List ℚ).length < 3) ∧
    (([1, 2] : List ℚ).length / 3 = 0 ∧
      getChunks ([1, 2] : List ℚ).length (([1, 2] : List ℚ).length / 3)
        = none ∧
      partitioned_mvm (fun _ => [1, 2]) 3 ([1, 2] : List ℚ) = none) :=
  ⟨by decide, by decide, C9_dilation_gt_length_errors (fun _ => [1, 2]) 3
    [1, 2] (by decide) (by decide)⟩

/-- C10 witness: a concrete run over ℚ with `diag = 7`. -/
theorem C10_kernel_mvm_diag_adds_diag_witness :
    (∀ r ∈ [[(1 : ℚ)]], r.length = 1) ∧
    ([(1 : ℚ)].length = [[(1 : ℚ)]].length) ∧
    kernel_mvm_diag [(1 : ℚ)] [[1]] 2 1 3 7 1 = some [20] ∧
    ([20] : List ℚ)
      = vadd (mvmul (kernel [[1]] [[1]] 2 1 3) [1]) (smulV 7 [1]) := by
  have hq : kernel_mvm_diag [(1 : ℚ)] [[1]] 2 1 3 7 1 = some [20] := by
    norm_num [kernel_mvm_diag, kXkXsq_mvm, quad_mvm_dil, partitioned_mvm,
      chunkVmap, getChunks, getChunksList, kXkXsq_row, col, ncols, dot,
      matSquare, smulV, vadd, ones, List.replicate, List.range_succ,
      List.range_zero, List.getD, List.getElem?_cons_zero,
      List.getElem?_cons_succ]
  refine ⟨?_, rfl, hq, ?_⟩
  · intro r hr
    rw [List.mem_singleton] at hr
    subst hr
    rfl
  · exact C10_kernel_mvm_diag_adds_diag [(1 : ℚ)] [[1]] 2 1 3 7 1 1
      (by intro r hr; rw [List.mem_singleton] at hr; subst hr; rfl)
      rfl [20] hq

/-! ## First-order expansions: closure rules -/

theorem Taylor1_congr {f g : α → α} {a b : α} (h : ∀ t, f t = g t)
    (hg : Taylor1 g a b) : Taylor1 f a b := by
  obtain ⟨p, hp⟩ := hg
  exact ⟨p, fun t => by rw [h t]; exact hp t⟩

theorem Taylor1_coeffs {f : α → α} {a b a' b' : α} (hf : Taylor1 f a b)
    (ha : a = a') (hb : b = b') : Taylor1 f a' b' := by
  subst ha hb
  exact hf

theorem Taylor1_const (a : α) : Taylor1 (fun _ => a) a 0 :=
  ⟨0, fun t => by simp⟩

theorem Taylor1_linear (a b : α) : Taylor1 (fun t => a + b * t) a b :=
  ⟨0, fun t => by simp⟩

theorem Taylor1_add {f g : α → α} {a b c d : α} (hf : Taylor1 f a b)
    (hg : Taylor1 g c d) : Taylor1 (fun t => f t + g t) (a + c) (b + d) := by
  obtain ⟨p, hp⟩ := hf
  obtain ⟨q, hq⟩ := hg
  refine ⟨p + q, fun t => ?_⟩
  dsimp only
  rw [hp t, hq t]
  simp only [Polynomial.eval_add]
  ring

theorem Taylor1_sub {f g : α → α} {a b c d : α} (hf : Taylor1 f a b)
    (hg : Taylor1 g c d) : Taylor1 (fun t => f t - g t) (a - c) (b - d) := by
  obtain ⟨p, hp⟩ := hf
  obtain ⟨q, hq⟩ := hg
  refine ⟨p - q, fun t => ?_⟩
  dsimp only
  rw [hp t, hq t]
  simp only [Polynomial.eval_sub]
  ring

theorem Taylor1_mul {f g : α → α} {a b c d : α} (hf : Taylor1 f a b)
    (hg : Taylor1 g c d) :
    Taylor1 (fun t => f t * g t) (a * c) (a * d + b * c) := by
  obtain ⟨p, hp⟩ := hf
  obtain ⟨q, hq⟩ := hg
  refine ⟨Polynomial.C (b * d) + Polynomial.C a * q + Polynomial.C c * p
    + Polynomial.X * (Polynomial.C b * q + Polynomial.C d * p)
    + Polynomial.X ^ 2 * (p * q), fun t => ?_⟩
  dsimp only
  rw [hp t, hq t]
  simp only [Polynomial.eval_add, Polynomial.eval_mul, Polynomial.eval_pow,
    Polynomial.eval_C, Polynomial.eval_X]
  ring

theorem Taylor1_smul (s : α) {f : α → α} {a b : α} (hf : Taylor1 f a b) :
    Taylor1 (fun t => s * f t) (s * a) (s * b) := by
  obtain ⟨p, hp⟩ := hf
  refine ⟨Polynomial.C s * p, fun t => ?_⟩
  dsimp only
  rw [hp t]
  simp only [Polynomial.eval_mul, Polynomial.eval_C]
  ring

theorem Taylor1_sum {ι : Type} (s : Finset ι) (f : ι → α → α) (a b : ι → α)
    (h : ∀ k ∈ s, Taylor1 (f k) (a k) (b k)) :
    Taylor1 (fun t => ∑ k ∈ s, f k t) (∑ k ∈ s, a k) (∑ k ∈ s, b k) := by
  classical
  induction s using Finset.induction_on with
  | empty => simpa using Taylor1_const (0 : α)
  | insert hx ih =>
      rename_i x s'
      rw [Finset.sum_insert hx, Finset.sum_insert hx]
      refine Taylor1_congr (fun t => Finset.sum_insert hx) ?_
      exact Taylor1_add (h x (Finset.mem_insert_self x s'))
        (ih (fun k hk => h k (Finset.mem_insert_of_mem hk)))

/-! ## First-order expansions: leaves -/

theorem zipWith_mul_getD (w u : List α) (p : ℕ) (hw : p < w.length)
    (hu : p < u.length) :
    (List.zipWith (fun a x => a * x) w u).getD p 0
      = w.getD p 0 * u.getD p 0 := by
  have h : p < (List.zipWith (fun a x => a * x) w u).length := by
    simp
    omega
  rw [List.getD_eq_getElem _ _ h, List.getD_eq_getElem _ _ hw,
    List.getD_eq_getElem _ _ hu, List.getElem_zipWith]

theorem kappa_t_getD (k kd : List α) (t : α) (p : ℕ) (hk : p < k.length)
    (hkd : p < kd.length) :
    (vadd k (smulV t kd)).getD p 0 = k.getD p 0 + t * kd.getD p 0 := by
  rw [vadd_getD _ _ _ hk (by simp; omega), smulV_getD]

/-- expansion of `⟨κ(t) ⊙ u, κ(t) ⊙ v⟩` along `κ(t) = κ + t·κ̇`. -/
theorem Taylor1_st (k kd u v : List α) (P : ℕ) (hk : k.length = P)
    (hkd : kd.length = P) (hu : u.length = P) (hv : v.length = P) :
    Taylor1 (fun t =>
        dot (List.zipWith (fun a x => a * x) (vadd k (smulV t kd)) u)
          (List.zipWith (fun a x => a * x) (vadd k (smulV t kd)) v))
      (dot (List.zipWith (fun a x => a * x) k u)
        (List.zipWith (fun a x => a * x) k v))
      (2 * dot (List.zipWith (fun a x => a * x) k u)
        (List.zipWith (fun a x => a * x) kd v)) := by
  have hlen : ∀ t : α, (vadd k (smulV t kd)).length = P := by
    intro t
    simp [hk, hkd]
  have hfam : ∀ t : α,
      dot (List.zipWith (fun a x => a * x) (vadd k (smulV t kd)) u)
        (List.zipWith (fun a x => a * x) (vadd k (smulV t kd)) v)
      = ∑ p ∈ Finset.range P,
          ((k.getD p 0 + t * kd.getD p 0) * u.getD p 0)
            * ((k.getD p 0 + t * kd.getD p 0) * v.getD p 0) := by
    intro t
    rw [dot_eq_sum_len _ _ P (by simp [hlen t, hu]) (by simp [hlen t, hv])]
    apply Finset.sum_congr rfl
    intro p hp
    rw [Finset.mem_range] at hp
    rw [zipWith_mul_getD _ _ _ (by rw [hlen t]; omega) (by omega),
      zipWith_mul_getD _ _ _ (by rw [hlen t]; omega) (by omega),
      kappa_t_getD k kd t p (by omega) (by omega)]
  refine Taylor1_congr hfam ?_
  refine Taylor1_coeffs (Taylor1_sum (Finset.range P) _
    (fun p => (k.getD p 0 * u.getD p 0) * (k.getD p 0 * v.getD p 0))
    (fun p => 2 * ((k.getD p 0 * u.getD p 0) * (kd.getD p 0 * v.getD p 0)))
    ?_) ?_ ?_
  · intro p _
    refine Taylor1_coeffs (Taylor1_congr (fun t => by ring)
      (Taylor1_mul
        (Taylor1_linear (k.getD p 0 * u.getD p 0) (kd.getD p 0 * u.getD p 0))
        (Taylor1_linear (k.getD p 0 * v.getD p 0)
          (kd.getD p 0 * v.getD p 0)))) rfl (by ring)
  · rw [dot_eq_sum_len _ _ P (by simp [hk, hu]) (by simp [hk, hv])]
    apply Finset.sum_congr rfl
    intro p hp
    rw [Finset.mem_range] at hp
    rw [zipWith_mul_getD _ _ _ (by omega) (by omega),
      zipWith_mul_getD _ _ _ (by omega) (by omega)]
  · rw [dot_eq_sum_len _ _ P (by simp [hk, hu]) (by simp [hkd, hv]),
      Finset.mul_sum]
    apply Finset.sum_congr rfl
    intro p hp
    rw [Finset.mem_range] at hp
    rw [zipWith_mul_getD _ _ _ (by omega) (by omega),
      zipWith_mul_getD _ _ _ (by omega) (by omega)]

/-- expansion of `⟨(κ(t) ⊙ u)², (κ(t) ⊙ v)²⟩` along `κ(t) = κ + t·κ̇`. -/
theorem Taylor1_qt (k kd u v : List α) (P : ℕ) (hk : k.length = P)
    (hkd : kd.length = P) (hu : u.length = P) (hv : v.length = P) :
    Taylor1 (fun t =>
        dot ((List.zipWith (fun a x => a * x) (vadd k (smulV t kd)) u).map
            (fun x => x ^ 2))
          ((List.zipWith (fun a x => a * x) (vadd k (smulV t kd)) v).map
            (fun x => x ^ 2)))
      (dot ((List.zipWith (fun a x => a * x) k u).map (fun x => x ^ 2))
        ((List.zipWith (fun a x => a * x) k v).map (fun x => x ^ 2)))
      (4 * dot (List.zipWith (fun a x => a * x) (k.map (fun x => x ^ 3))
          (u.map (fun x => x ^ 2)))
        (List.zipWith (fun a x => a * x) kd (v.map (fun x => x ^ 2)))) := by
  have hlen : ∀ t : α, (vadd k (smulV t kd)).length = P := by
    intro t
    simp [hk, hkd]
  have hfam : ∀ t : α,
      dot ((List.zipWith (fun a x => a * x) (vadd k (smulV t kd)) u).map
          (fun x => x ^ 2))
        ((List.zipWith (fun a x => a * x) (vadd k (smulV t kd)) v).map
          (fun x => x ^ 2))
      = ∑ p ∈ Finset.range P,
          (((k.getD p 0 + t * kd.getD p 0) * u.getD p 0) ^ 2)
            * (((k.getD p 0 + t * kd.getD p 0) * v.getD p 0) ^ 2) := by
    intro t
    rw [dot_eq_sum_len _ _ P (by simp [hlen t, hu]) (by simp [hlen t, hv])]
    apply Finset.sum_congr rfl
    intro p hp
    rw [Finset.mem_range] at hp
    rw [getD_map_of_lt _ _ _ (by simp [hlen t, hu]; omega) 0,
      getD_map_of_lt _ _ _ (by simp [hlen t, hv]; omega) 0,
      zipWith_mul_getD _ _ _ (by rw [hlen t]; omega) (by omega),
      zipWith_mul_getD _ _ _ (by rw [hlen t]; omega) (by omega),
      kappa_t_getD k kd t p (by omega) (by omega)]
  refine Taylor1_congr hfam ?_
  refine Taylor1_coeffs (Taylor1_sum (Finset.range P) _
    (fun p => ((k.getD p 0 * u.getD p 0) ^ 2) * ((k.getD p 0 * v.getD p 0) ^ 2))
    (fun p => 4 * ((k.getD p 0 ^ 3 * u.getD p 0 ^ 2)
      * (kd.getD p 0 * v.getD p 0 ^ 2)))
    ?_) ?_ ?_
  · intro p _
    refine Taylor1_coeffs (Taylor1_congr (fun t => by ring)
      (Taylor1_mul
        (Taylor1_mul
          (Taylor1_linear (k.getD p 0 * u.getD p 0) (kd.getD p 0 * u.getD p 0))
          (Taylor1_linear (k.getD p 0 * u.getD p 0)
            (kd.getD p 0 * u.getD p 0)))
        (Taylor1_mul
          (Taylor1_linear (k.getD p 0 * v.getD p 0) (kd.getD p 0 * v.getD p 0))
          (Taylor1_linear (k.getD p 0 * v.getD p 0)
            (kd.getD p 0 * v.getD p 0))))) (by ring) (by ring)
  · rw [dot_eq_sum_len _ _ P (by simp [hk, hu]) (by simp [hk, hv])]
    apply Finset.sum_congr rfl
    intro p hp
    rw [Finset.mem_range] at hp
    rw [getD_map_of_lt _ _ _ (by simp [hk, hu]; omega) 0,
      getD_map_of_lt _ _ _ (by simp [hk, hv]; omega) 0,
      zipWith_mul_getD _ _ _ (by omega) (by omega),
      zipWith_mul_getD _ _ _ (by omega) (by omega)]
  · rw [dot_eq_sum_len _ _ P (by simp [hk, hu]) (by simp [hkd, hv]),
      Finset.mul_sum]
    apply Finset.sum_congr rfl
    intro p hp
    rw [Finset.mem_range] at hp
    rw [zipWith_mul_getD _ _ _ (by simp [hk]; omega) (by simp [hu]; omega),
      zipWith_mul_getD _ _ _ (by omega) (by simp [hv]; omega),
      getD_map_of_lt _ _ _ (by omega) 0, getD_map_of_lt _ _ _ (by omega) 0,
      getD_map_of_lt _ _ _ (by omega) 0]

/-- expansion of `(η + t·η̇)²`. -/
theorem Taylor1_eta_sq (e ed : α) :
    Taylor1 (fun t => (e + t * ed) ^ 2) (e ^ 2) (2 * e * ed) :=
  Taylor1_coeffs (Taylor1_congr (fun t => by ring)
    (Taylor1_mul (Taylor1_linear e ed) (Taylor1_linear e ed)))
    (by ring) (by ring)

/-- first-order expansion of one kernel-matrix entry along the tangent
direction `(κ̇, η̇1, η̇2)`, with rows `ui`, `uj` of `X` held fixed. -/
theorem kernel_entry_taylor [CharZero α] (ui uj k kd : List α)
    (e1 e2 e1d e2d c : α) (P : ℕ) (hui : ui.length = P) (huj : uj.length = P)
    (hk : k.length = P) (hkd : kd.length = P) :
    Taylor1 (fun t =>
        1 / 2 * (e2 + t * e2d) ^ 2
            * (1 + dot
                (List.zipWith (fun a x => a * x) (vadd k (smulV t kd)) ui)
                (List.zipWith (fun a x => a * x) (vadd k (smulV t kd)) uj))
              ^ 2
          + -(1 / 2) * (e2 + t * e2d) ^ 2
            * dot ((List.zipWith (fun a x => a * x) (vadd k (smulV t kd))
                  ui).map (fun x => x ^ 2))
                ((List.zipWith (fun a x => a * x) (vadd k (smulV t kd))
                  uj).map (fun x => x ^ 2))
          + ((e1 + t * e1d) ^ 2 - (e2 + t * e2d) ^ 2)
            * dot (List.zipWith (fun a x => a * x) (vadd k (smulV t kd)) ui)
                (List.zipWith (fun a x => a * x) (vadd k (smulV t kd)) uj)
          + (c ^ 2 - 1 / 2 * (e2 + t * e2d) ^ 2))
      (1 / 2 * e2 ^ 2 * (1 + dot (List.zipWith (fun a x => a * x) k ui)
            (List.zipWith (fun a x => a * x) k uj)) ^ 2
        + -(1 / 2) * e2 ^ 2
          * dot ((List.zipWith (fun a x => a * x) k ui).map (fun x => x ^ 2))
              ((List.zipWith (fun a x => a * x) k uj).map (fun x => x ^ 2))
        + (e1 ^ 2 - e2 ^ 2) * dot (List.zipWith (fun a x => a * x) k ui)
            (List.zipWith (fun a x => a * x) k uj)
        + (c ^ 2 - 1 / 2 * e2 ^ 2))
      (e2 * e2d * (1 + dot (List.zipWith (fun a x => a * x) k ui)
            (List.zipWith (fun a x => a * x) k uj)) ^ 2
        + 2 * e2 ^ 2
          * (1 + dot (List.zipWith (fun a x => a * x) k ui)
              (List.zipWith (fun a x => a * x) k uj))
          * dot (List.zipWith (fun a x => a * x) k ui)
              (List.zipWith (fun a x => a * x) kd uj)
        - e2 * e2d
          * dot ((List.zipWith (fun a x => a * x) k ui).map (fun x => x ^ 2))
              ((List.zipWith (fun a x => a * x) k uj).map (fun x => x ^ 2))
        - 2 * e2 ^ 2
          * dot (List.zipWith (fun a x => a * x) (k.map (fun x => x ^ 3))
              (ui.map (fun x => x ^ 2)))
              (List.zipWith (fun a x => a * x) kd (uj.map (fun x => x ^ 2)))
        + (2 * e1 * e1d - 2 * e2 * e2d)
          * dot (List.zipWith (fun a x => a * x) k ui)
              (List.zipWith (fun a x => a * x) k uj)
        + (e1 ^ 2 - e2 ^ 2)
          * (2 * dot (List.zipWith (fun a x => a * x) k ui)
              (List.zipWith (fun a x => a * x) kd uj))
        - e2 * e2d) := by
  have hst := Taylor1_st k kd ui uj P hk hkd hui huj
  have hqt := Taylor1_qt k kd ui uj P hk hkd hui huj
  have h2sq := Taylor1_eta_sq e2 e2d
  have h1sq := Taylor1_eta_sq e1 e1d
  have hs1 := Taylor1_add (Taylor1_const (1 : α)) hst
  have hs2 : Taylor1 (fun t =>
      (1 + dot (List.zipWith (fun a x => a * x) (vadd k (smulV t kd)) ui)
        (List.zipWith (fun a x => a * x) (vadd k (smulV t kd)) uj)) ^ 2)
      ((1 + dot (List.zipWith (fun a x => a * x) k ui)
          (List.zipWith (fun a x => a * x) k uj))
        * (1 + dot (List.zipWith (fun a x => a * x) k ui)
          (List.zipWith (fun a x => a * x) k uj)))
      ((1 + dot (List.zipWith (fun a x => a * x) k ui)
          (List.zipWith (fun a x => a * x) k uj))
        * (0 + 2 * dot (List.zipWith (fun a x => a * x) k ui)
          (List.zipWith (fun a x => a * x) kd uj))
        + (0 + 2 * dot (List.zipWith (fun a x => a * x) k ui)
          (List.zipWith (fun a x => a * x) kd uj))
        * (1 + dot (List.zipWith (fun a x => a * x) k ui)
          (List.zipWith (fun a x => a * x) k uj))) :=
    Taylor1_congr (fun t => by ring) (Taylor1_mul hs1 hs1)
  have hcomp := Taylor1_add (Taylor1_add (Taylor1_add
    (Taylor1_mul (Taylor1_smul (1 / 2 : α) h2sq) hs2)
    (Taylor1_mul (Taylor1_smul (-(1 / 2) : α) h2sq) hqt))
    (Taylor1_mul (Taylor1_sub h1sq h2sq) hst))
    (Taylor1_sub (Taylor1_const (c ^ 2)) (Taylor1_smul (1 / 2 : α) h2sq))
  refine Taylor1_congr (fun t => ?_) (Taylor1_coeffs hcomp ?_ ?_)
  · ring
  · ring
  · ring

/-- the tangent output's entry `i`, written as the Gram-weighted sum of the
per-entry first-order coefficients from `kernel_entry_taylor`. -/
theorem tangent_entry (b kappa kappa_dot : List α) (X : List (List α))
    (e1 e2 e1d e2d : α) (P : ℕ)
    (hrows : ∀ r ∈ X, r.length = P) (hk : kappa.length = P)
    (hkd : kappa_dot.length = P) (hb : b.length = X.length)
    (i : ℕ) (hi : i < X.length) :
    (vadd (vadd (vsub
        (smulV (2 * e1 ^ 2)
          ((List.range (scaleCols kappa X).length).map (fun n =>
            dot ((List.range (ncols (scaleCols kappa_dot X))).map
                (fun p => dot b (col (scaleCols kappa_dot X) p)))
              ((scaleCols kappa X).getD n []))))
        (smulV (2 * e2 ^ 2) (vsub
          ((List.range (scaleCols (kappa.map (fun x => x ^ 3))
              (matSquare X)).length).map (fun n =>
            dot ((List.range (ncols (scaleCols kappa_dot (matSquare X)))).map
                (fun p => dot b (col (scaleCols kappa_dot (matSquare X)) p)))
              ((scaleCols (kappa.map (fun x => x ^ 3))
                (matSquare X)).getD n [])))
          ((List.range b.length).map (fun n =>
            dot b (kXdkXsq_row n (scaleCols kappa X)
              (scaleCols kappa_dot X)))))))
      (smulV (2 * e1 * e1d)
        ((List.range (scaleCols kappa X).length).map (fun n =>
          dot ((scaleCols kappa X).getD n [])
            ((List.range (ncols (scaleCols kappa X))).map
              (fun p => dot (col (scaleCols kappa X) p) b))))))
      (smulV (e2 * e2d) (vsub (vsub (vsub
        ((List.range b.length).map (fun n =>
          dot b (kXkXsq_row n (scaleCols kappa X))))
        ((List.range (matSquare (scaleCols kappa X)).length).map (fun n =>
          dot ((matSquare (scaleCols kappa X)).getD n [])
            ((List.range (ncols (matSquare (scaleCols kappa X)))).map
              (fun p => dot (col (matSquare (scaleCols kappa X)) p) b)))))
        (smulV 2 ((List.range (scaleCols kappa X).length).map (fun n =>
          dot ((scaleCols kappa X).getD n [])
            ((List.range (ncols (scaleCols kappa X))).map
              (fun p => dot (col (scaleCols kappa X) p) b))))))
        (smulV b.sum (ones b.length))))).getD i 0
    = ∑ j ∈ Finset.range X.length,
        (e2 * e2d * (1 + dot
              (List.zipWith (fun a x => a * x) kappa (X.getD i []))
              (List.zipWith (fun a x => a * x) kappa (X.getD j []))) ^ 2
          + 2 * e2 ^ 2
            * (1 + dot (List.zipWith (fun a x => a * x) kappa (X.getD i []))
                (List.zipWith (fun a x => a * x) kappa (X.getD j [])))
            * dot (List.zipWith (fun a x => a * x) kappa (X.getD i []))
                (List.zipWith (fun a x => a * x) kappa_dot (X.getD j []))
          - e2 * e2d
            * dot ((List.zipWith (fun a x => a * x) kappa
                  (X.getD i [])).map (fun x => x ^ 2))
                ((List.zipWith (fun a x => a * x) kappa
                  (X.getD j [])).map (fun x => x ^ 2))
          - 2 * e2 ^ 2
            * dot (List.zipWith (fun a x => a * x)
                (kappa.map (fun x => x ^ 3)) ((X.getD i []).map
                  (fun x => x ^ 2)))
                (List.zipWith (fun a x => a * x) kappa_dot
                  ((X.getD j []).map (fun x => x ^ 2)))
          + (2 * e1 * e1d - 2 * e2 * e2d)
            * dot (List.zipWith (fun a x => a * x) kappa (X.getD i []))
                (List.zipWith (fun a x => a * x) kappa (X.getD j []))
          + (e1 ^ 2 - e2 ^ 2)
            * (2 * dot (List.zipWith (fun a x => a * x) kappa (X.getD i []))
                (List.zipWith (fun a x => a * x) kappa_dot (X.getD j [])))
          - e2 * e2d) * b.getD j 0 := by
  have hNb : b.length = X.length := hb
  have hkXrows : ∀ r ∈ scaleCols kappa X, r.length = P :=
    scaleCols_rows kappa X P hk hrows
  have hdkXrows : ∀ r ∈ scaleCols kappa_dot X, r.length = P :=
    scaleCols_rows kappa_dot X P hkd hrows
  have hsqrows : ∀ r ∈ matSquare X, r.length = P := matSquare_rows X P hrows
  have hdkXsqrows : ∀ r ∈ scaleCols kappa_dot (matSquare X), r.length = P :=
    scaleCols_rows kappa_dot (matSquare X) P hkd hsqrows
  have hk3rows : ∀ r ∈ scaleCols (kappa.map (fun x => x ^ 3)) (matSquare X),
      r.length = P :=
    scaleCols_rows _ (matSquare X) P (by simp [hk]) hsqrows
  have hkXsqrows : ∀ r ∈ matSquare (scaleCols kappa X), r.length = P :=
    matSquare_rows _ P hkXrows
  have hpos : 0 < X.length := by omega
  have hnc1 : ncols (scaleCols kappa_dot X) = P :=
    ncols_eq _ _ hdkXrows (by simpa using hpos)
  have hnc2 : ncols (scaleCols kappa_dot (matSquare X)) = P :=
    ncols_eq _ _ hdkXsqrows (by simpa using hpos)
  have hnc3 : ncols (scaleCols kappa X) = P :=
    ncols_eq _ _ hkXrows (by simpa using hpos)
  have hnc4 : ncols (matSquare (scaleCols kappa X)) = P :=
    ncols_eq _ _ hkXsqrows (by simpa using hpos)
  have hib : i < b.length := by omega
  have hikX : i < (scaleCols kappa X).length := by simpa using hi
  have hik3 : i < (scaleCols (kappa.map (fun x => x ^ 3))
      (matSquare X)).length := by simpa using hi
  have hisq : i < (matSquare (scaleCols kappa X)).length := by simpa using hi
  rw [vadd_getD _ _ _ (by simp [hb]; omega) (by simp [hb]; omega)]
  rw [vadd_getD _ _ _ (by simp [hb]; omega) (by simp [hb]; omega)]
  rw [vsub_getD _ _ _ (by simp [hb]; omega) (by simp [hb]; omega)]
  rw [smulV_getD, smulV_getD, smulV_getD, smulV_getD]
  rw [vsub_getD _ _ _ (by simp [hb]; omega) (by simp [hb]; omega)]
  rw [vsub_getD _ _ _ (by simp [hb]; omega) (by simp [hb]; omega)]
  rw [vsub_getD _ _ _ (by simp [hb]; omega) (by simp [hb]; omega)]
  rw [vsub_getD _ _ _ (by simp [hb]; omega) (by simp [hb]; omega)]
  rw [smulV_getD, smulV_getD]
  rw [getD_map_range _ _ _ hikX, getD_map_range _ _ _ hik3,
    getD_map_range _ _ _ hib, getD_map_range _ _ _ hikX,
    getD_map_range _ _ _ hib, getD_map_range _ _ _ hisq,
    ones_getD _ _ hib, mul_one]
  -- closed Σ-forms for the seven scalar components
  have hA : dot ((List.range (ncols (scaleCols kappa_dot X))).map
        (fun p => dot b (col (scaleCols kappa_dot X) p)))
      ((scaleCols kappa X).getD i [])
      = ∑ j ∈ Finset.range X.length,
          dot ((scaleCols kappa X).getD i [])
            ((scaleCols kappa_dot X).getD j []) * b.getD j 0 := by
    rw [dot_comm, hnc1]
    rw [List.map_congr_left (fun p _ => dot_comm b (col (scaleCols kappa_dot X) p))]
    have := bilinear_exchange b ((scaleCols kappa X).getD i [])
      (scaleCols kappa_dot X) P hdkXrows
      (row_length _ P hkXrows i hikX) (by simpa using hNb)
    simpa using this
  have hB : dot ((List.range (ncols (scaleCols kappa_dot (matSquare X)))).map
        (fun p => dot b (col (scaleCols kappa_dot (matSquare X)) p)))
      ((scaleCols (kappa.map (fun x => x ^ 3)) (matSquare X)).getD i [])
      = ∑ j ∈ Finset.range X.length,
          dot ((scaleCols (kappa.map (fun x => x ^ 3))
              (matSquare X)).getD i [])
            ((scaleCols kappa_dot (matSquare X)).getD j []) * b.getD j 0 := by
    rw [dot_comm, hnc2]
    rw [List.map_congr_left
      (fun p _ => dot_comm b (col (scaleCols kappa_dot (matSquare X)) p))]
    have := bilinear_exchange b
      ((scaleCols (kappa.map (fun x => x ^ 3)) (matSquare X)).getD i [])
      (scaleCols kappa_dot (matSquare X)) P hdkXsqrows
      (row_length _ P hk3rows i hik3) (by simpa using hNb)
    simpa using this
  have hC : dot b (kXdkXsq_row i (scaleCols kappa X) (scaleCols kappa_dot X))
      = ∑ j ∈ Finset.range X.length,
          (dot ((scaleCols kappa X).getD j [])
              ((scaleCols kappa X).getD i [])
            * dot ((scaleCols kappa X).getD j [])
              ((scaleCols kappa_dot X).getD i [])) * b.getD j 0 := by
    unfold kXdkXsq_row
    rw [dot_eq_sum_len _ _ X.length hNb (by simp)]
    apply Finset.sum_congr rfl
    intro j hj
    rw [Finset.mem_range] at hj
    rw [getD_map_of_lt _ _ _ (by simpa using hj) []]
    ring
  have hD : dot ((scaleCols kappa X).getD i [])
      ((List.range (ncols (scaleCols kappa X))).map
        (fun p => dot (col (scaleCols kappa X) p) b))
      = ∑ j ∈ Finset.range X.length,
          dot ((scaleCols kappa X).getD i [])
            ((scaleCols kappa X).getD j []) * b.getD j 0 := by
    rw [hnc3]
    have := bilinear_exchange b ((scaleCols kappa X).getD i [])
      (scaleCols kappa X) P hkXrows (row_length _ P hkXrows i hikX)
      (by simpa using hNb)
    simpa using this
  have hE : dot b (kXkXsq_row i (scaleCols kappa X))
      = ∑ j ∈ Finset.range X.length,
          (1 + dot ((scaleCols kappa X).getD i [])
            ((scaleCols kappa X).getD j [])) ^ 2 * b.getD j 0 := by
    unfold kXkXsq_row
    rw [dot_eq_sum_len _ _ X.length hNb (by simp)]
    apply Finset.sum_congr rfl
    intro j hj
    rw [Finset.mem_range] at hj
    rw [getD_map_of_lt _ _ _ (by simpa using hj) []]
    rw [dot_comm]
    ring
  have hF : dot ((matSquare (scaleCols kappa X)).getD i [])
      ((List.range (ncols (matSquare (scaleCols kappa X)))).map
        (fun p => dot (col (matSquare (scaleCols kappa X)) p) b))
      = ∑ j ∈ Finset.range X.length,
          dot (((scaleCols kappa X).getD i []).map (fun x => x ^ 2))
            (((scaleCols kappa X).getD j []).map (fun x => x ^ 2))
            * b.getD j 0 := by
    rw [hnc4]
    have := bilinear_exchange b ((matSquare (scaleCols kappa X)).getD i [])
      (matSquare (scaleCols kappa X)) P hkXsqrows
      (row_length _ P hkXsqrows i hisq) (by simpa using hNb)
    rw [this]
    simp only [length_matSquare, length_scaleCols]
    apply Finset.sum_congr rfl
    intro j hj
    rw [Finset.mem_range] at hj
    rw [matSquare_row _ _ hikX, matSquare_row _ _ (by simpa using hj)]
  have hG : b.sum = ∑ j ∈ Finset.range X.length, b.getD j 0 := by
    rw [list_sum_getD, hNb]
  rw [hA, hB, hC, hD, hE, hF, hG]
  simp only [Finset.mul_sum, ← Finset.sum_sub_distrib, ← Finset.sum_add_distrib]
  apply Finset.sum_congr rfl
  intro j hj
  rw [Finset.mem_range] at hj
  have hjX : j < X.length := hj
  rw [scaleCols_row kappa X i hi, scaleCols_row kappa X j hjX,
    scaleCols_row kappa_dot X i hi, scaleCols_row kappa_dot X j hjX,
    scaleCols_row (kappa.map (fun x => x ^ 3)) (matSquare X) i
      (by simpa using hi),
    scaleCols_row kappa_dot (matSquare X) j (by simpa using hjX),
    matSquare_row X i hi, matSquare_row X j hjX]
  have hswap : dot (List.zipWith (fun a x => a * x) kappa (X.getD j []))
      (List.zipWith (fun a x => a * x) kappa_dot (X.getD i []))
      = dot (List.zipWith (fun a x => a * x) kappa (X.getD i []))
        (List.zipWith (fun a x => a * x) kappa_dot (X.getD j [])) := by
    rw [dot_zipWith_swap kappa kappa_dot (X.getD j []) (X.getD i []) P hk hkd
      (row_length X P hrows j hjX) (row_length X P hrows i hi)]
    exact dot_comm _ _
  have hcomm1 : dot (List.zipWith (fun a x => a * x) kappa (X.getD j []))
      (List.zipWith (fun a x => a * x) kappa (X.getD i []))
      = dot (List.zipWith (fun a x => a * x) kappa (X.getD i []))
        (List.zipWith (fun a x => a * x) kappa (X.getD j [])) :=
    dot_comm _ _
  rw [hswap, hcomm1]
  ring

/-- over ℝ, a first-order expansion is an honest derivative at `t = 0`. -/
theorem Taylor1_hasDerivAt {f : ℝ → ℝ} {a b : ℝ} (h : Taylor1 f a b) :
    HasDerivAt f b 0 := by
  obtain ⟨p, hp⟩ := h
  have hfun : f = fun t => a + b * t + t ^ 2 * p.eval t := funext hp
  rw [hfun]
  have h1 : HasDerivAt (fun t : ℝ => a + b * t) b 0 := by
    simpa using ((hasDerivAt_id (0 : ℝ)).const_mul b).const_add a
  have h2 : HasDerivAt (fun t : ℝ => t ^ 2 * p.eval t) 0 0 := by
    have hpow : HasDerivAt (fun t : ℝ => t ^ 2) 0 0 := by
      simpa using hasDerivAt_pow 2 (0 : ℝ)
    have := hpow.mul (Polynomial.hasDerivAt p 0)
    simpa using this
  simpa using h1.add h2

/-- C2: for every primal input and tangent direction that the chunked rule
completes on, each entry of `tangent_output` is the exact directional
derivative, at `t = 0`, of the corresponding entry of the primal map
`t ↦ kernel_matrix((κ+tκ̇)⊙X, (κ+tκ̇)⊙X, η1+tη̇1, η2+tη̇2, c) @ b`. -/
theorem C2_tangent_output_is_directional_derivative
    (b kappa kappa_dot : List ℝ) (X : List (List ℝ))
    (eta1 eta2 eta1_dot eta2_dot c : ℝ) (dilation : ℕ)
    (hrows : ∀ r ∈ X, r.length = kappa.length)
    (hkd : kappa_dot.length = kappa.length) (hb : b.length = X.length)
    (p tg : List ℝ)
    (h : kernel_mvm_jvp b X c dilation kappa eta1 eta2 kappa_dot eta1_dot
      eta2_dot = some (p, tg)) (i : ℕ) (hi : i < b.length) :
    HasDerivAt (fun t =>
      (mvmul (kernel (scaleCols (vadd kappa (smulV t kappa_dot)) X)
        (scaleCols (vadd kappa (smulV t kappa_dot)) X)
        (eta1 + t * eta1_dot) (eta2 + t * eta2_dot) c) b).getD i 0)
      (tg.getD i 0) 0 := by
  have hiX : i < X.length := by omega
  obtain ⟨k1b, k2b, k3b, b_dkX, b_dkXsq, kXdkXsq_b, kX_b_dkX, k3Xsq_b_dkXsq,
    e1, e2, e3, e4, e5, e6, e7, e8, hp, htg⟩ :=
    kernel_mvm_jvp_some b kappa kappa_dot X eta1 eta2 eta1_dot eta2_dot c
      dilation p tg h
  have htg2 : tg.getD i 0
      = ∑ j ∈ Finset.range X.length,
        (eta2 * eta2_dot * (1 + dot
              (List.zipWith (fun a x => a * x) kappa (X.getD i []))
              (List.zipWith (fun a x => a * x) kappa (X.getD j []))) ^ 2
          + 2 * eta2 ^ 2
            * (1 + dot (List.zipWith (fun a x => a * x) kappa (X.getD i []))
                (List.zipWith (fun a x => a * x) kappa (X.getD j [])))
            * dot (List.zipWith (fun a x => a * x) kappa (X.getD i []))
                (List.zipWith (fun a x => a * x) kappa_dot (X.getD j []))
          - eta2 * eta2_dot
            * dot ((List.zipWith (fun a x => a * x) kappa
                  (X.getD i [])).map (fun x => x ^ 2))
                ((List.zipWith (fun a x => a * x) kappa
                  (X.getD j [])).map (fun x => x ^ 2))
          - 2 * eta2 ^ 2
            * dot (List.zipWith (fun a x => a * x)
                (kappa.map (fun x => x ^ 3)) ((X.getD i []).map
                  (fun x => x ^ 2)))
                (List.zipWith (fun a x => a * x) kappa_dot
                  ((X.getD j []).map (fun x => x ^ 2)))
          + (2 * eta1 * eta1_dot - 2 * eta2 * eta2_dot)
            * dot (List.zipWith (fun a x => a * x) kappa (X.getD i []))
                (List.zipWith (fun a x => a * x) kappa (X.getD j []))
          + (eta1 ^ 2 - eta2 ^ 2)
            * (2 * dot (List.zipWith (fun a x => a * x) kappa (X.getD i []))
                (List.zipWith (fun a x => a * x) kappa_dot (X.getD j [])))
          - eta2 * eta2_dot) * b.getD j 0 := by
    rw [htg, kX_mvm2_eq _ _ _ _ e7, kX_mvm_eq _ _ _ _ e4,
      kX_mvm2_eq _ _ _ _ e8, kX_mvm_eq _ _ _ _ e5,
      kXdkXsq_mvm_eq _ _ _ _ _ e6, quad_mvm_dil_eq _ _ _ _ e3,
      kXkXsq_mvm_eq _ _ _ _ e1, quad_mvm_dil_eq _ _ _ _ e2]
    exact tangent_entry b kappa kappa_dot X eta1 eta2 eta1_dot eta2_dot
      kappa.length hrows rfl hkd hb i hiX
  have hfam : ∀ t : ℝ,
      (mvmul (kernel (scaleCols (vadd kappa (smulV t kappa_dot)) X)
        (scaleCols (vadd kappa (smulV t kappa_dot)) X)
        (eta1 + t * eta1_dot) (eta2 + t * eta2_dot) c) b).getD i 0
      = ∑ j ∈ Finset.range X.length,
          (1 / 2 * (eta2 + t * eta2_dot) ^ 2
              * (1 + dot (List.zipWith (fun a x => a * x)
                  (vadd kappa (smulV t kappa_dot)) (X.getD i []))
                (List.zipWith (fun a x => a * x)
                  (vadd kappa (smulV t kappa_dot)) (X.getD j []))) ^ 2
            + -(1 / 2) * (eta2 + t * eta2_dot) ^ 2
              * dot ((List.zipWith (fun a x => a * x)
                    (vadd kappa (smulV t kappa_dot)) (X.getD i [])).map
                  (fun x => x ^ 2))
                  ((List.zipWith (fun a x => a * x)
                    (vadd kappa (smulV t kappa_dot)) (X.getD j [])).map
                  (fun x => x ^ 2))
            + ((eta1 + t * eta1_dot) ^ 2 - (eta2 + t * eta2_dot) ^ 2)
              * dot (List.zipWith (fun a x => a * x)
                  (vadd kappa (smulV t kappa_dot)) (X.getD i []))
                (List.zipWith (fun a x => a * x)
                  (vadd kappa (smulV t kappa_dot)) (X.getD j []))
            + (c ^ 2 - 1 / 2 * (eta2 + t * eta2_dot) ^ 2))
            * b.getD j 0 := by
    intro t
    rw [mvmul_kernel_entry _ _ _ _ _ _ (by simpa using hb) i
      (by simpa using hiX)]
    simp only [length_scaleCols]
    apply Finset.sum_congr rfl
    intro j hj
    rw [Finset.mem_range] at hj
    rw [scaleCols_row _ X i hiX, scaleCols_row _ X j hj]
  rw [htg2]
  suffices hT : Taylor1 (fun t =>
      (mvmul (kernel (scaleCols (vadd kappa (smulV t kappa_dot)) X)
        (scaleCols (vadd kappa (smulV t kappa_dot)) X)
        (eta1 + t * eta1_dot) (eta2 + t * eta2_dot) c) b).getD i 0)
      (∑ j ∈ Finset.range X.length,
        (1 / 2 * eta2 ^ 2 * (1 + dot
              (List.zipWith (fun a x => a * x) kappa (X.getD i []))
              (List.zipWith (fun a x => a * x) kappa (X.getD j []))) ^ 2
          + -(1 / 2) * eta2 ^ 2
            * dot ((List.zipWith (fun a x => a * x) kappa
                  (X.getD i [])).map (fun x => x ^ 2))
                ((List.zipWith (fun a x => a * x) kappa
                  (X.getD j [])).map (fun x => x ^ 2))
          + (eta1 ^ 2 - eta2 ^ 2)
            * dot (List.zipWith (fun a x => a * x) kappa (X.getD i []))
                (List.zipWith (fun a x => a * x) kappa (X.getD j []))
          + (c ^ 2 - 1 / 2 * eta2 ^ 2)) * b.getD j 0)
      (∑ j ∈ Finset.range X.length,
        (eta2 * eta2_dot * (1 + dot
              (List.zipWith (fun a x => a * x) kappa (X.getD i []))
              (List.zipWith (fun a x => a * x) kappa (X.getD j []))) ^ 2
          + 2 * eta2 ^ 2
            * (1 + dot (List.zipWith (fun a x => a * x) kappa (X.getD i []))
                (List.zipWith (fun a x => a * x) kappa (X.getD j [])))
            * dot (List.zipWith (fun a x => a * x) kappa (X.getD i []))
                (List.zipWith (fun a x => a * x) kappa_dot (X.getD j []))
          - eta2 * eta2_dot
            * dot ((List.zipWith (fun a x => a * x) kappa
                  (X.getD i [])).map (fun x => x ^ 2))
                ((List.zipWith (fun a x => a * x) kappa
                  (X.getD j [])).map (fun x => x ^ 2))
          - 2 * eta2 ^ 2
            * dot (List.zipWith (fun a x => a * x)
                (kappa.map (fun x => x ^ 3)) ((X.getD i []).map
                  (fun x => x ^ 2)))
                (List.zipWith (fun a x => a * x) kappa_dot
                  ((X.getD j []).map (fun x => x ^ 2)))
          + (2 * eta1 * eta1_dot - 2 * eta2 * eta2_dot)
            * dot (List.zipWith (fun a x => a * x) kappa (X.getD i []))
                (List.zipWith (fun a x => a * x) kappa (X.getD j []))
          + (eta1 ^ 2 - eta2 ^ 2)
            * (2 * dot (List.zipWith (fun a x => a * x) kappa (X.getD i []))
                (List.zipWith (fun a x => a * x) kappa_dot (X.getD j [])))
          - eta2 * eta2_dot) * b.getD j 0) by
    exact Taylor1_hasDerivAt hT
  refine Taylor1_congr hfam (Taylor1_sum (Finset.range X.length) _ _ _ ?_)
  intro j hj
  rw [Finset.mem_range] at hj
  refine Taylor1_coeffs (Taylor1_mul
    (kernel_entry_taylor (X.getD i []) (X.getD j []) kappa kappa_dot
      eta1 eta2 eta1_dot eta2_dot c kappa.length
      (row_length X kappa.length hrows i hiX)
      (row_length X kappa.length hrows j hj) rfl hkd)
    (Taylor1_const (b.getD j 0))) ?_ ?_
  · rfl
  · ring

/-- C2 witness: a concrete run over ℝ. -/
theorem C2_tangent_output_is_directional_derivative_witness :
    (∀ r ∈ [[(1 : ℝ)]], r.length = [(1 : ℝ)].length) ∧
    ([(0 : ℝ)].length = [(1 : ℝ)].length) ∧
    ([(1 : ℝ)].length = [[(1 : ℝ)]].length) ∧
    kernel_mvm_jvp [(1 : ℝ)] [[1]] 3 1 [1] 2 1 [0] 0 0 = some ([13], [0]) ∧
    (0 < [(1 : ℝ)].length) ∧
    HasDerivAt (fun t =>
      (mvmul (kernel (scaleCols (vadd [1] (smulV t [0])) [[1]])
        (scaleCols (vadd [1] (smulV t [0])) [[1]])
        (2 + t * 0) (1 + t * 0) 3) [(1 : ℝ)]).getD 0 0)
      (([0] : List ℝ).getD 0 0) 0 := by
  have hrows : ∀ r ∈ [[(1 : ℝ)]], r.length = [(1 : ℝ)].length := by
    intro r hr
    rw [List.mem_singleton] at hr
    subst hr
    rfl
  have hj : kernel_mvm_jvp [(1 : ℝ)] [[1]] 3 1 [1] 2 1 [0] 0 0
      = some ([13], [0]) := by
    norm_num [kernel_mvm_jvp, kXkXsq_mvm, kXdkXsq_mvm, kX_mvm, kX_mvm2,
      quad_mvm_dil, partitioned_mvm, partitioned_mvm2, chunkVmap, getChunks,
      getChunksList, kXkXsq_row, kXdkXsq_row, col, ncols, dot, scaleCols,
      matSquare, smulV, vadd, vsub, ones, List.replicate, List.range_succ,
      List.range_zero, List.getD, List.getElem?_cons_zero,
      List.getElem?_cons_succ]
  exact ⟨hrows, rfl, rfl, hj, by decide,
    C2_tangent_output_is_directional_derivative [(1 : ℝ)] [1] [0] [[1]]
      2 1 0 0 3 1 hrows rfl rfl [13] [0] hj 0 (by decide)⟩

end Mvm
